import Mathlib

/-
  Verification development for the padmy PostgreSQL toolkit.

  The development shallowly embeds the parts of the code base that the
  checked properties talk about:

  * a string layer modelling Python str values as lists of characters,
    used for the migration header parser and serializer
    (padmy/migration/utils.py, class Header) and for the migration
    file-name parser (parse_filename, get_files);
  * a structured migration-file layer modelling migration folders,
    ordering verification, repair and reordering
    (padmy/migration/utils.py, padmy/migration/reorder.py,
    padmy/migration/migration.py);
  * a sampling layer modelling the schema graph, the temporary-table
    worklist algorithm and the row-level semantics of the generated SQL
    (padmy/sampling/sampling.py, padmy/db.py);
  * a configuration layer modelling sample-size resolution
    (padmy/db.py Database.load_config, padmy/config.py).
-/

deriving instance DecidableEq for Except

namespace S2P

/-! ### String layer: Python str as List Char -/

/-- Python str modelled as a list of characters. -/
abbrev PStr := List Char

/-- Conversion from a Lean string literal. -/
def strtl (s : String) : PStr := s.data

/-- The characters Python str.strip removes (ASCII whitespace). -/
def pySpace (c : Char) : Bool :=
  c == ' ' || c == '\t' || c == '\n' || c == '\r' || c == '\x0b' || c == '\x0c'

/-- Drop elements satisfying p from the end of a list. -/
def dropEndWhile (p : Char → Bool) (l : PStr) : PStr :=
  (l.reverse.dropWhile p).reverse

/-- Python str.strip with no arguments. -/
def pyStrip (s : PStr) : PStr := dropEndWhile pySpace (s.dropWhile pySpace)

/-- Python str.lower restricted to the ASCII range used by the code. -/
def pyLower (s : PStr) : PStr := s.map Char.toLower

/-- Python s.split(sep) for a one-character separator: splits at every
occurrence, keeping empty segments. -/
def splitCh (c : Char) : PStr → List PStr
  | [] => [[]]
  | a :: as =>
    if a = c then [] :: splitCh c as
    else
      match splitCh c as with
      | [] => [[a]]
      | r :: rs => (a :: r) :: rs

/-- Python s.split(c)[1]; the callers guarantee at least one separator,
so the default is never reached there. -/
def seg1 (c : Char) (s : PStr) : PStr := ((splitCh c s).drop 1).headD []

/-- Python str.startswith, by structural recursion. -/
def pfxOf : PStr → PStr → Bool
  | [], _ => true
  | _ :: _, [] => false
  | a :: as, b :: bs => a == b && pfxOf as bs

/-! ### Header model (padmy/migration/utils.py, class Header) -/

/-- The Header dataclass: prev_file, author, version, skip_verify,
skip_reason. -/
structure PyHeader where
  prev_file : Option PStr
  author : Option PStr
  version : Option PStr
  skip_verify : Bool
  skip_reason : Option PStr
deriving DecidableEq, Repr

/-- The Header constructor including the dataclass post-init hook,
which defaults skip_reason when skip_verify is set and no reason was
given. -/
def mkHeader (p a v : Option PStr) (sv : Bool) (sr : Option PStr) : PyHeader :=
  { prev_file := p, author := a, version := v, skip_verify := sv,
    skip_reason := if sv && (sr == none) then some (strtl ("no reason provided")) else sr }

/-- Python truthiness of an optional string: None and the empty string
are falsy. -/
def truthyS (o : Option PStr) : Bool :=
  match o with
  | none => false
  | some s => !s.isEmpty

/-- Header.is_empty: true when none of prev_file, author, version is
truthy; skip_verify is deliberately not consulted. -/
def isEmptyH (h : PyHeader) : Bool :=
  !(truthyS h.prev_file || truthyS h.author || truthyS h.version)

/-- Recognized line marker for the previous file. -/
def pfxPrev : PStr := strtl ("-- Prev-file:")

/-- Recognized line marker for the author. -/
def pfxAuthor : PStr := strtl ("-- Author:")

/-- Recognized line marker for the version. -/
def pfxVersion : PStr := strtl ("-- Version:")

/-- Recognized line marker for skip-verify. -/
def pfxSkip : PStr := strtl ("-- Skip-verify:")

/-- The local variables of Header.from_text while scanning lines. -/
structure HStScan where
  p : Option PStr := none
  a : Option PStr := none
  v : Option PStr := none
  sv : Bool := false
  sr : Option PStr := none
deriving DecidableEq, Repr

/-- One iteration of the from_text loop over a line. -/
def scanLine (st : HStScan) (line : PStr) : HStScan :=
  if pfxOf pfxPrev line then { st with p := some (pyStrip (seg1 ':' line)) }
  else if pfxOf pfxAuthor line then { st with a := some (pyStrip (seg1 ':' line)) }
  else if pfxOf pfxVersion line then { st with v := some (pyStrip (seg1 ':' line)) }
  else if pfxOf pfxSkip line then
    { st with sr := some (pyLower (pyStrip (seg1 ':' line))), sv := true }
  else st

/-- Header.from_text: scan the lines of the text and build a header
through the constructor. -/
def headerFromText (t : PStr) : PyHeader :=
  let st := (splitCh '\n' t).foldl scanLine {}
  mkHeader st.p st.a st.v st.sv st.sr

/-- Python "x or empty" coercion used when writing header values. -/
def orEmpty (o : Option PStr) : PStr :=
  match o with
  | none => []
  | some s => s

/-- The list of lines Header.as_text builds before joining. -/
def headerLines (h : PyHeader) : List PStr :=
  [pfxPrev ++ [' '] ++ orEmpty h.prev_file,
   pfxAuthor ++ [' '] ++ orEmpty h.author]
  ++ (match h.version with
      | none => []
      | some v => [pfxVersion ++ [' '] ++ v])
  ++ (if h.skip_verify then
        [pfxSkip ++ [' '] ++
          (match h.skip_reason with
           | none => strtl ("no reason provided")
           | some r => if r.isEmpty then strtl ("no reason provided") else r)]
      else [])

/-- Join lines with a newline character. -/
def joinNL : List PStr → PStr
  | [] => []
  | [x] => x
  | x :: xs => x ++ '\n' :: joinNL xs

/-- Header.as_text. The textwrap.dedent applied by the code is the
identity here, because every line begins with a dash, so the common
leading-whitespace margin is empty; the final strip is kept. -/
def headerAsText (h : PyHeader) : PStr := pyStrip (joinNL (headerLines h))

/-- A header value that the serialized format can carry verbatim: no
newline, no colon, no surrounding whitespace, nonempty. -/
def cleanV (v : PStr) : Prop := '\n' ∉ v ∧ ':' ∉ v ∧ pyStrip v = v ∧ v ≠ []

instance (v : PStr) : Decidable (cleanV v) := by
  unfold cleanV
  infer_instance

/-- The header field of MigrationFile.from_file: the parsed header, or
None when it is empty in the is_empty sense. -/
def headerOfFile (body : PStr) : Option PyHeader :=
  let h := headerFromText body
  if isEmptyH h then none else some h

/-- MigrationFile.skip_verify: false whenever the header is absent. -/
def skipVerifyOf (o : Option PyHeader) : Bool :=
  match o with
  | none => false
  | some h => h.skip_verify

/-- The skip condition of migrate_verify for the pair at index i:
the down file's skip_verify flag, or the only-last selection. -/
def shouldSkipPair (downHdr : Option PyHeader) (onlyLast : Bool)
    (i nbMigrations nbFiles : Nat) : Bool :=
  skipVerifyOf downHdr || (onlyLast && !(i == nbMigrations - 1) && !(nbFiles == 2))

/-! ### File-name parsing (parse_filename, get_files) -/

/-- ASCII decimal digit test. -/
def pyDigit (c : Char) : Bool := '0' ≤ c && c ≤ '9'

/-- Python int(s) for the nonnegative decimal literals that appear in
migration file names; surrounding whitespace is tolerated, anything
else fails. -/
def pyIntNat (s : PStr) : Option Nat :=
  let t := pyStrip s
  if t.isEmpty || !(t.all pyDigit) then none
  else some (t.foldl (fun n c => 10 * n + (c.toNat - 48)) 0)

/-- Remove every occurrence of pat from s (Python str.replace with an
empty replacement); only called with a nonempty pattern. -/
def replAllGo (pat : PStr) : PStr → PStr
  | [] => []
  | c :: cs =>
    if pat ≠ [] && pfxOf pat (c :: cs) then replAllGo pat ((c :: cs).drop pat.length)
    else c :: replAllGo pat cs
termination_by s => s.length
decreasing_by
  · simp only [List.length_drop, List.length_cons]
    rename_i hcond
    have hne : pat ≠ [] := by
      by_contra hc
      simp [hc] at hcond
    have : 1 ≤ pat.length := by
      cases pat with
      | nil => exact absurd rfl hne
      | cons x xs => simp
    omega
  · simp

/-- The result of parse_filename. -/
structure ParsedFName where
  tsSec : Nat
  fidS : PStr
  kindS : PStr
deriving DecidableEq, Repr

/-- parse_filename: the name must split on the dash into exactly three
segments, the first a decimal integer; otherwise the unpacking or the
int conversion raises. -/
def parseFName (nm : PStr) : Except PStr ParsedFName :=
  match splitCh '-' nm with
  | [ts, fid, kd] =>
    match pyIntNat ts with
    | some n => .ok { tsSec := n, fidS := fid, kindS := replAllGo (strtl (".sql")) kd }
    | none => .error (strtl ("invalid literal for int"))
  | _ => .error (strtl ("unpack mismatch"))

/-- Suffix test used to model the *.sql glob pattern. -/
def endsWithL (s pat : PStr) : Bool := pfxOf pat.reverse s.reverse

/-- Effectful map over a list in the Except monad, stopping at the
first exception. -/
def mapME (f : α → Except ε β) : List α → Except ε (List β)
  | [] => .ok []
  | x :: xs => do
    let y ← f x
    let ys ← mapME f xs
    .ok (y :: ys)

/-- get_files at the name level: every file matching *.sql is parsed
with parse_filename; an exception propagates. -/
def getFilesNames (folder : List PStr) : Except PStr (List ParsedFName) :=
  mapME parseFName (folder.filter (fun nm => endsWithL nm (strtl (".sql"))))

/-! ### Sorting

A structurally recursive insertion sort models the sorted builtin; the
sort key never distinguishes the two files of a well-formed pair, so
any sort by the key gives the observations made by the code. -/

/-- Insert into a sorted list. -/
def insM (le : α → α → Bool) (x : α) : List α → List α
  | [] => [x]
  | y :: ys => if le x y then x :: y :: ys else y :: insM le x ys

/-- Insertion sort. -/
def isortM (le : α → α → Bool) : List α → List α
  | [] => []
  | x :: xs => insM le x (isortM le xs)

/-! ### Structured migration-file layer

Migration file names are the triples written as ts-fileId-kind.sql; the
timestamp in the name is whole seconds, while in-memory timestamps are
kept at microsecond precision, as in the Python datetime values.  File
ids are 8-character hexadecimal tokens of a fixed length, so their
string ordering coincides with the numeric ordering used here.  A
stored header is reduced to its prev_file field, the only one the
ordering verifier and the repair code consult; the outer Option states
whether a header is present at all. -/

/-- Migration file kind. -/
inductive MKind | up | down
deriving DecidableEq, Repr

/-- A well-formed migration file name: seconds timestamp, file id,
kind. -/
structure FName where
  sec : Nat
  fid : Nat
  kind : MKind
deriving DecidableEq, Repr

/-- In-memory MigrationFile: microsecond timestamp, id, kind, the
current on-disk name, and the optional header holding an optional
prev_file value. -/
structure MFile where
  ts : Nat
  fid : Nat
  kind : MKind
  pname : FName
  hdr : Option (Option FName)
deriving DecidableEq, Repr

/-- MigrationFile.name: the timestamp is truncated to whole seconds. -/
def MFile.mname (f : MFile) : FName := ⟨f.ts / 1000000, f.fid, f.kind⟩

/-- MigrationFile.replace_ts: assign a new timestamp and rename the
file on disk to the name derived from it. -/
def replaceTs (f : MFile) (t : Nat) : MFile :=
  { f with ts := t, pname := ⟨t / 1000000, f.fid, f.kind⟩ }

/-- A file as stored on disk: its name and its header content. -/
structure DFile where
  nm : FName
  hdr : Option (Option FName)
deriving DecidableEq, Repr

/-- Reading one disk file (MigrationFile.from_file): the in-memory
timestamp is reconstructed from the whole-second name. -/
def ofDisk (d : DFile) : MFile := ⟨d.nm.sec * 1000000, d.nm.fid, d.nm.kind, d.nm, d.hdr⟩

/-- The sort key of get_files: ascending (ts, file_id). -/
def keyLe (a b : MFile) : Bool :=
  a.ts < b.ts || (a.ts == b.ts && a.fid ≤ b.fid)

/-- Sorting as done by get_files. -/
def sortFiles (fs : List MFile) : List MFile := isortM keyLe fs

/-- get_files over a folder of disk files. -/
def getFilesD (disk : List DFile) : List MFile := sortFiles (disk.map ofDisk)

/-- Maximal runs of equal file ids, as produced by itertools.groupby
over the sorted file list. -/
def groupRuns : List MFile → List (List MFile)
  | [] => []
  | x :: xs =>
    match groupRuns xs with
    | [] => [[x]]
    | [] :: rest => [x] :: [] :: rest
    | (y :: ys) :: rest =>
      if x.fid = y.fid then (x :: y :: ys) :: rest else [x] :: (y :: ys) :: rest

/-- Errors of the migration-file layer. -/
inductive MigErr
  | badGroup (fid : Nat)
  | dup (fid : Nat)
  | order (fid : Nat)
  | header (fid : Nat)
  | headerMissing (fid : Nat)
  | notImpl
  | missingIds
deriving DecidableEq, Repr

/-- One groupby run must hold exactly one up and one down file, as
checked by iter_migration_files. -/
def pairOfGroup (g : List MFile) : Except MigErr (MFile × MFile) :=
  let ups := g.filter (fun f => f.kind == MKind.up)
  let downs := g.filter (fun f => f.kind == MKind.down)
  match ups, downs with
  | [u], [d] => .ok (u, d)
  | _, _ => .error (.badGroup (match g with | [] => 0 | f :: _ => f.fid))

/-- iter_migration_files over an already sorted file list.  The Python
generator raises lazily; only success cases are compared here, and
success agrees with this eager version. -/
def iterPairs (fs : List MFile) : Except MigErr (List (MFile × MFile)) :=
  mapME pairOfGroup (groupRuns fs)

/-- The two non-fatal error kinds of verify_migration_files. -/
inductive VKind | order | header
deriving DecidableEq, Repr

/-- A collected verification error: kind and file id. -/
structure VRec where
  vk : VKind
  vfid : Nat
deriving DecidableEq, Repr

/-- Does this file hold a header whose prev_file disagrees with the
actual previous file name of its kind. -/
def hdrBad (f prev : MFile) : Bool :=
  match f.hdr with
  | none => false
  | some ph => ph != some prev.pname

/-- The body of the try block of verify_migration_files: the first
failing check for the current pair against the previous pair. -/
def checkPair (prevPair pair : MFile × MFile) : Option VRec :=
  if pair.1.ts < prevPair.1.ts then some ⟨VKind.order, pair.1.fid⟩
  else if pair.2.ts < prevPair.2.ts then some ⟨VKind.order, pair.2.fid⟩
  else if hdrBad pair.1 prevPair.1 then some ⟨VKind.header, pair.1.fid⟩
  else if hdrBad pair.2 prevPair.2 then some ⟨VKind.header, pair.2.fid⟩
  else none

/-- The loop of verify_migration_files: the first pair only becomes the
predecessor, its id is not recorded; duplicates raise regardless of
raise_error; other errors raise or are collected. -/
def verifyGo (raiseErr : Bool) :
    List (MFile × MFile) → Option (MFile × MFile) → List Nat →
    List ((MFile × MFile) × VRec) → Except MigErr (List ((MFile × MFile) × VRec))
  | [], _, _, acc => .ok acc
  | pr :: rest, none, ids, acc => verifyGo raiseErr rest (some pr) ids acc
  | pr :: rest, some prev, ids, acc =>
    if pr.1.fid ∈ ids then .error (.dup pr.1.fid)
    else
      match checkPair prev pr with
      | some e =>
        if raiseErr then
          .error (match e.vk with | .order => .order e.vfid | .header => .header e.vfid)
        else verifyGo raiseErr rest (some pr) (pr.1.fid :: ids) (acc ++ [(pr, e)])
      | none => verifyGo raiseErr rest (some pr) (pr.1.fid :: ids) acc

/-- verify_migration_files over a folder. -/
def verifyDisk (raiseErr : Bool) (disk : List DFile) :
    Except MigErr (List ((MFile × MFile) × VRec)) := do
  let pairs ← iterPairs (getFilesD disk)
  verifyGo raiseErr pairs none [] []

/-- The file_errors dict built by repair_headers; a later entry for the
same id overwrites an earlier one. -/
def errMapOf (errs : List ((MFile × MFile) × VRec)) : List (Nat × VKind) :=
  (errs.map (fun e => (e.2.vfid, e.2.vk))).reverse

/-- Dictionary lookup. -/
def lookupErr (m : List (Nat × VKind)) (i : Nat) : Option VKind :=
  (m.find? (fun x => x.1 == i)).map (·.2)

/-- The helper fixing one pair: only header errors are implemented, and
both files must carry a header; the prev_file fields are pointed at the
previous pair. -/
def fixFile (pair prevPair : MFile × MFile) (vk : VKind) : Except MigErr (MFile × MFile) :=
  match vk with
  | .header =>
    match pair.1.hdr, pair.2.hdr with
    | some _, some _ =>
      .ok ({ pair.1 with hdr := some (some prevPair.1.pname) },
           { pair.2 with hdr := some (some prevPair.2.pname) })
    | _, _ => .error (.headerMissing pair.1.fid)
  | .order => .error .notImpl

/-- The repair loop over pairs: the first pair is skipped, pairs whose
id is in the error map are fixed, and the modified file names are
collected. -/
def repairGo (errMap : List (Nat × VKind)) :
    List (MFile × MFile) → Option (MFile × MFile) →
    Except MigErr (List (MFile × MFile) × List FName)
  | [], _ => .ok ([], [])
  | pr :: rest, none => do
    let (ps, mods) ← repairGo errMap rest (some pr)
    .ok (pr :: ps, mods)
  | pr :: rest, some prev =>
    match lookupErr errMap pr.1.fid with
    | some vk => do
      let pr' ← fixFile pr prev vk
      let (ps, mods) ← repairGo errMap rest (some pr')
      .ok (pr' :: ps, pr'.1.pname :: pr'.2.pname :: mods)
    | none => do
      let (ps, mods) ← repairGo errMap rest (some pr)
      .ok (pr :: ps, mods)

/-- Writing the pair list back to disk. -/
def toDisk (ps : List (MFile × MFile)) : List DFile :=
  (ps.map (fun pr => [DFile.mk pr.1.pname pr.1.hdr, DFile.mk pr.2.pname pr.2.hdr])).flatten

/-- repair_headers: verify without raising, return unchanged when no
error was found, otherwise fix the erroneous pairs in ascending order
and report the modified paths. -/
def repairHeadersP (disk : List DFile) : Except MigErr (List DFile × List FName) := do
  let errs ← verifyDisk false disk
  if errs.isEmpty then .ok (disk, [])
  else do
    let pairs ← iterPairs (getFilesD disk)
    let (ps, mods) ← repairGo (errMapOf errs) pairs none
    .ok (toDisk ps, mods)

/-- The loop of reorder_files_by_last: pairs are visited in folder
order; a pair whose id belongs to the remaining set is stamped with the
running microsecond timestamp; the loop stops early once the set is
exhausted. -/
def reorderGo : List (MFile × MFile) → List Nat → Nat →
    List (MFile × MFile) × List Nat × List FName
  | [], ids, _ => ([], ids, [])
  | pr :: rest, ids, curTs =>
    if ids.isEmpty then (pr :: rest, ids, [])
    else if pr.1.fid ∈ ids then
      let u := replaceTs pr.1 curTs
      let d := replaceTs pr.2 curTs
      let (ps, rem, mods) := reorderGo rest (ids.erase pr.1.fid) (curTs + 1)
      ((u, d) :: ps, rem, u.pname :: d.pname :: mods)
    else
      let (ps, rem, mods) := reorderGo rest ids curTs
      (pr :: ps, rem, mods)

/-- reorder_files_by_last: the listed ids form a set; matching pairs
get timestamps now, now plus one microsecond, and so on, in folder
order; remaining ids fail; repair_headers runs afterwards. -/
def reorderFilesByLast (now : Nat) (disk : List DFile) (lastIds : List Nat) :
    Except MigErr (List DFile × List FName) :=
  if lastIds.isEmpty then .ok (disk, [])
  else do
    let pairs ← iterPairs (getFilesD disk)
    let (ps, rem, mods) := reorderGo pairs lastIds.dedup now
    if rem.isEmpty then do
      let (disk1, mods2) ← repairHeadersP (toDisk ps)
      .ok (disk1, mods ++ mods2)
    else .error .missingIds

/-- The ascending id order of the up files of a folder, as read back
from disk (get_files with up_only). -/
def upIdsD (disk : List DFile) : List Nat :=
  ((getFilesD disk).filter (fun f => f.kind == MKind.up)).map (·.fid)

/-! ### Ledger and migrate-up selection (padmy/migration/migration.py) -/

/-- One row of the public.migration ledger; timestamps in
microseconds. -/
structure LRow where
  appliedAt : Nat
  fileTs : Nat
  fid : Nat
  kindL : MKind
  fname : FName
deriving DecidableEq, Repr

/-- No ledger row of kind down shares this file id (the left join of
the latest-migration query finding no match). -/
def noDown (ledger : List LRow) (m : LRow) : Bool :=
  !(ledger.any (fun r => r.kindL == MKind.down && r.fid == m.fid))

/-- Descending (applied_at, file_ts) comparison of the order-by
clause. -/
def descLe (a b : LRow) : Bool :=
  b.appliedAt < a.appliedAt || (b.appliedAt == a.appliedAt && b.fileTs ≤ a.fileTs)

/-- The latest-migration query: up rows without a matching down row,
ordered by applied_at descending then file_ts descending, limit 1. -/
def latestMigration (ledger : List LRow) : Option LRow :=
  (isortM descLe (ledger.filter (fun m => m.kindL == MKind.up && noDown ledger m))).head?

/-- The pending filter of get_migration_files. -/
def pendingCond (la : Option LRow) (u : MFile) : Bool :=
  match la with
  | none => true
  | some l => l.fileTs ≤ u.ts && u.pname != l.fname

/-- get_migration_files: the up files of the folder passing the pending
filter, truncated when a positive count is requested. -/
def getMigrationFiles (ledger : List LRow) (disk : List DFile) (nb : Int) :
    Except MigErr (List MFile) := do
  let pairs ← iterPairs (getFilesD disk)
  let sel := (pairs.map (·.1)).filter (pendingCond (latestMigration ledger))
  .ok (if 0 < nb then sel.take nb.toNat else sel)

/-! ### Sampling layer (padmy/sampling/sampling.py, padmy/db.py)

Tables are identified by a numeric id standing for the full name.
Rows are reduced to a primary-key value and one optional referenced
primary-key value per foreign key of the owning table, which is the
data the generated join and insert statements inspect.  The random row
choices made by TABLESAMPLE SYSTEM_ROWS and by the LIMIT top-up query
are a parameter of the model, constrained to return a selection of the
candidate rows.  Python iterates some sets in arbitrary order; the
model iterates them in ascending id order, which leaves every
pk-membership observation unchanged. -/

/-- A row: primary key value and, aligned with the foreign keys of its
table, the referenced primary-key values (None for a NULL column). -/
structure Row where
  pk : Nat
  refs : List (Option Nat)
deriving DecidableEq, Repr

/-- A table of the schema graph together with its source rows;
the count used by process_table is the row count. -/
structure STable where
  tid : Nat
  fks : List Nat
  ign : Bool
  sample : Nat
  rows : List Row
deriving DecidableEq, Repr

/-- A database schema graph. -/
abbrev SGraph := List STable

/-- Table lookup by id. -/
def tblOf (g : SGraph) (i : Nat) : Option STable := g.find? (fun t => t.tid == i)

/-- Table.child_tables_safe: the tables holding a foreign key into this
one, excluding self references and ignored tables. -/
def childrenSafe (g : SGraph) (t : STable) : List STable :=
  g.filter (fun c => c.fks.contains t.tid && !(c.tid == t.tid) && !c.ign)

/-- Table.parent_tables_safe: the targets of the foreign keys of this
table, excluding self references and ignored tables. -/
def parentsSafe (g : SGraph) (t : STable) : List STable :=
  g.filter (fun p => t.fks.contains p.tid && !(p.tid == t.tid) && !p.ign)

/-- Table.is_leaf: no safe children and at least one safe parent. -/
def isLeafT (g : SGraph) (t : STable) : Bool :=
  (childrenSafe g t).isEmpty && !(parentsSafe g t).isEmpty

/-- Table.is_root: no safe parent. -/
def isRootT (g : SGraph) (t : STable) : Bool := (parentsSafe g t).isEmpty

/-- The mutable sampling state: the created temporary tables and the
processed flags, newest first. -/
structure SState where
  tmps : List (Nat × List Row)
  procd : List Nat
deriving DecidableEq, Repr

/-- Rows of the temporary table of a table id. -/
def tmpRows (st : SState) (i : Nat) : List Row :=
  ((st.tmps.find? (fun x => x.1 == i)).map (·.2)).getD []

/-- Whether a table has been processed. -/
def isProcd (st : SState) (i : Nat) : Bool := st.procd.contains i

/-- Table.children_has_been_processed. -/
def childrenProcd (g : SGraph) (st : SState) (t : STable) : Bool :=
  (childrenSafe g t).all (fun c => isProcd st c.tid)

/-- The indices of the foreign keys of c that reference table u; the
insert-child query builds one inner join per such index. -/
def fkIdxs (c : STable) (u : Nat) : List Nat :=
  (List.range c.fks.length).filter (fun j => c.fks.get? j == some u)

/-- The join condition of get_insert_child_fk_data_query for a source
row p of the parent: every join against the temporary table of child c
must find a matching row. -/
def joinCondB (st : SState) (c : STable) (u : Nat) (p : Row) : Bool :=
  (fkIdxs c u).all (fun j => (tmpRows st c.tid).any (fun s => s.refs.get? j == some (some p.pk)))

/-- The rows of parent t selected by the child-driven insert for child
c. -/
def joinRows (st : SState) (t c : STable) : List Row :=
  t.rows.filter (joinCondB st c t.tid)

/-- Sequential insert with ON CONFLICT DO NOTHING on the primary
key. -/
def pkInsert (acc new : List Row) : List Row :=
  new.foldl (fun a r => if a.any (fun q => q.pk == r.pk) then a else a ++ [r]) acc

/-- The target sample size of process_table. -/
def tableSize (t : STable) : Nat := t.rows.length * t.sample / 100

/-- The safe children in the canonical order the model iterates. -/
def childrenOrdered (g : SGraph) (t : STable) : List STable :=
  isortM (fun a b => a.tid ≤ b.tid) (childrenSafe g t)

/-- Errors of the sampling engine. -/
inductive SampErr
  | noRoot
  | noTable
  | alreadyProc (i : Nat)
  | cyclic (names : List Nat)
  | notProcessed
  | outOfFuel
deriving DecidableEq, Repr

/-- The ids of the given tables that are not yet processed. -/
def unprocIds (st : SState) (ts : List STable) : List Nat :=
  (ts.filter (fun x => !isProcd st x.tid)).map (·.tid)

/-- process_table: leaves are sampled directly; a node whose safe
children are all processed is built from the child joins plus a top-up
selection; otherwise the table defers and returns its unprocessed safe
children.  The return value on success is the set of unprocessed safe
parents. -/
def processTable (g : SGraph) (σ : Nat → List Row → List Row) (st : SState) (t : STable) :
    Except SampErr (SState × List Nat) :=
  if isProcd st t.tid then .error (.alreadyProc t.tid)
  else
    let sz := tableSize t
    if isLeafT g t then
      let tmp := (σ t.tid t.rows).take sz
      .ok (⟨(t.tid, tmp) :: st.tmps, t.tid :: st.procd⟩, unprocIds st (parentsSafe g t))
    else if childrenProcd g st t then
      let joined := (childrenOrdered g t).foldl (fun a c => pkInsert a (joinRows st t c)) []
      let cnt := joined.length
      let cands := t.rows.filter (fun r => !(joined.any (fun q => q.pk == r.pk)))
      let tmp := if cnt < sz then joined ++ (σ t.tid cands).take (sz - cnt) else joined
      .ok (⟨(t.tid, tmp) :: st.tmps, t.tid :: st.procd⟩, unprocIds st (parentsSafe g t))
    else
      .ok (st, unprocIds st (childrenSafe g t))

/-- Canonical worklist representation of a Python set of tables:
deduplicated ascending ids. -/
def canonW (l : List Nat) : List Nat := isortM (fun a b => a ≤ b) l.dedup

/-- One full pass of the worklist loop, accumulating the returned
table sets; already processed tables are skipped. -/
def runPass (g : SGraph) (σ : Nat → List Row → List Row) :
    List Nat → SState → List Nat → Except SampErr (SState × List Nat)
  | [], st, acc => .ok (st, acc)
  | i :: is, st, acc =>
    match tblOf g i with
    | none => .error .noTable
    | some t =>
      if isProcd st i then runPass g σ is st acc
      else do
        let (st', ret) ← processTable g σ st t
        runPass g σ is st' (acc ++ ret)

/-- The tables named by the cycle-detection error: those whose safe
children are not all processed. -/
def namedCyc (g : SGraph) (st : SState) : List Nat :=
  (g.filter (fun t => !childrenProcd g st t)).map (·.tid)

/-- The while loop of create_temp_tables, with explicit fuel; the
worklists compared by the cycle check are Python sets, compared here by
their canonical name lists. -/
def runLoop (g : SGraph) (σ : Nat → List Row → List Row) :
    Nat → List Nat → SState → Except SampErr SState
  | 0, _, _ => .error .outOfFuel
  | fuel + 1, w, st =>
    if w.isEmpty then .ok st
    else do
      let (st', acc) ← runPass g σ w st []
      let w' := canonW acc
      if w' == canonW w then .error (.cyclic (namedCyc g st'))
      else runLoop g σ fuel w' st'

/-- create_temp_tables: the initial worklist holds the non-ignored root
tables (default node strategy). -/
def createTempTables (g : SGraph) (σ : Nat → List Row → List Row) (fuel : Nat) :
    Except SampErr SState :=
  let w0 := canonW ((g.filter (fun t => isRootT g t && !t.ign)).map (·.tid))
  if w0.isEmpty then .error .noRoot
  else runLoop g σ fuel w0 ⟨[], []⟩

/-- The rows a table contributes to the target database: the temporary
table streamed with INSERT ON CONFLICT DO NOTHING into the empty
target. -/
def targetRows (st : SState) (i : Nat) : List Row := pkInsert [] (tmpRows st i)

/-- sample_database up to the transfer: temp-table creation followed by
the safety check that every table was processed. -/
def sampleDatabase (g : SGraph) (σ : Nat → List Row → List Row) (fuel : Nat) :
    Except SampErr SState := do
  let st ← createTempTables g σ fuel
  if g.all (fun t => isProcd st t.tid) then .ok st else .error .notProcessed

/-- The referential-closure property of the claim, as a decidable
check: every foreign-key reference held by a target row finds its
referenced primary key in the target rows of the referenced table. -/
def riOkB (g : SGraph) (st : SState) : Bool :=
  g.all fun t =>
    (targetRows st t.tid).all fun r =>
      (List.range t.fks.length).all fun j =>
        match t.fks.get? j, r.refs.get? j with
        | some u, some (some v) => (targetRows st u).any (fun p => p.pk == v)
        | _, _ => true

/-! ### Sample-size configuration (padmy/db.py Database.load_config) -/

/-- The sample field of a table entry of the configuration file. -/
structure CfgTable where
  sampleT : Option ℚ
  ignT : Bool
deriving DecidableEq, Repr

/-- The sample field of a schema entry of the configuration file. -/
structure CfgSchema where
  sampleS : Option ℚ
deriving Repr

/-- get_first over the three candidates with the not-None test. -/
def getFirst3 (a b c : Option ℚ) : Option ℚ :=
  match a with
  | some x => some x
  | none =>
    match b with
    | some x => some x
    | none => c

/-- The sample size stored on a table by load_config: the first
non-null of table, schema and global samples, converted with int();
None models the raised ValueError.  The configured values are checked
to lie between 0 and 100, so int() agrees with the floor. -/
def loadSampleSize (tc : Option CfgTable) (sc : Option CfgSchema) (glob : Option ℚ) :
    Option Nat :=
  match getFirst3 (match tc with | none => none | some c => c.sampleT)
      (match sc with | none => none | some c => c.sampleS) glob with
  | none => none
  | some q => some ⌊q⌋.toNat

/-- The target size computed by process_table from the stored integer
percentage. -/
def sizeFromPct (count pct : Nat) : Nat := count * pct / 100

/-- The size formula as the claim states it, with the unconverted
rational percentage. -/
def claimSize (count : Nat) (q : ℚ) : Int := ⌊(count : ℚ) * q / 100⌋

/-! ### Concrete sampling graphs used by the cycle-detection claims -/

/-- A root above a two-cycle, wired asymmetrically: table 1 references
the root 0 and table 2; table 2 references table 1; only table 1 is a
child of the root. -/
def cycGraph : SGraph :=
  [⟨0, [], false, 100, []⟩, ⟨1, [0, 2], false, 100, []⟩, ⟨2, [1], false, 100, []⟩]

/-- A root above a two-cycle, wired symmetrically: both cycle members
reference the root, so they enter the worklist together. -/
def cycGraphB : SGraph :=
  [⟨0, [], false, 100, []⟩, ⟨1, [0, 2], false, 100, []⟩, ⟨2, [0, 1], false, 100, []⟩]

/-- The identity row choice. -/
def pickAll : Nat → List Row → List Row := fun _ rs => rs

/-- A migration folder whose first pair (by sort order) shares its file
id with the third pair, with a different pair in between; no file
carries a header. -/
def dupFolder : List DFile :=
  [⟨⟨1, 5, .up⟩, none⟩, ⟨⟨1, 5, .down⟩, none⟩,
   ⟨⟨2, 7, .up⟩, none⟩, ⟨⟨2, 7, .down⟩, none⟩,
   ⟨⟨3, 5, .up⟩, none⟩, ⟨⟨3, 5, .down⟩, none⟩]

/-- create_temp_tables exhausts every fuel bound: the worklist loop
never terminates. -/
def runsForever (g : SGraph) (σ : Nat → List Row → List Row) : Prop :=
  ∀ fuel, createTempTables g σ fuel = .error .outOfFuel

/-- The common whole-second timestamp of the reorder scenario
(2024-01-01). -/
def TS0 : Nat := 1704067200

/-- File names of the reorder scenario. -/
def fnOf (i : Nat) (k : MKind) : FName := ⟨TS0, i, k⟩

/-- Five migration pairs with ids 0 to 4, all at the same timestamp,
with correctly chained headers. -/
def folder5 : List DFile :=
  [⟨fnOf 0 .up, some none⟩, ⟨fnOf 0 .down, some none⟩,
   ⟨fnOf 1 .up, some (some (fnOf 0 .up))⟩, ⟨fnOf 1 .down, some (some (fnOf 0 .down))⟩,
   ⟨fnOf 2 .up, some (some (fnOf 1 .up))⟩, ⟨fnOf 2 .down, some (some (fnOf 1 .down))⟩,
   ⟨fnOf 3 .up, some (some (fnOf 2 .up))⟩, ⟨fnOf 3 .down, some (some (fnOf 2 .down))⟩,
   ⟨fnOf 4 .up, some (some (fnOf 3 .up))⟩, ⟨fnOf 4 .down, some (some (fnOf 3 .down))⟩]

/-- A later moment, in microseconds, used as now by the reorder
scenario. -/
def NOW5 : Nat := 1704153600000000

/-- A two-pair folder with a correct header chain on its second
pair. -/
def chainFolder2 : List DFile :=
  [⟨⟨1, 1, .up⟩, none⟩, ⟨⟨1, 1, .down⟩, none⟩,
   ⟨⟨2, 2, .up⟩, some (some ⟨1, 1, .up⟩)⟩, ⟨⟨2, 2, .down⟩, some (some ⟨1, 1, .down⟩)⟩]

/-- The pair list read back from chainFolder2. -/
def chainPairs2 : List (MFile × MFile) :=
  [(⟨1000000, 1, .up, ⟨1, 1, .up⟩, none⟩, ⟨1000000, 1, .down, ⟨1, 1, .down⟩, none⟩),
   (⟨2000000, 2, .up, ⟨2, 2, .up⟩, some (some ⟨1, 1, .up⟩)⟩,
    ⟨2000000, 2, .down, ⟨2, 2, .down⟩, some (some ⟨1, 1, .down⟩)⟩)]

/-- The files of a pair list in pair order. -/
def flatPairs (ps : List (MFile × MFile)) : List MFile :=
  (ps.map (fun pr => [pr.1, pr.2])).flatten

/-- Two pairs agreeing on everything except possibly the stored
headers. -/
def sameShape (pr qr : MFile × MFile) : Prop :=
  qr.1.ts = pr.1.ts ∧ qr.1.fid = pr.1.fid ∧ qr.1.kind = pr.1.kind ∧
  qr.1.pname = pr.1.pname ∧
  qr.2.ts = pr.2.ts ∧ qr.2.fid = pr.2.fid ∧ qr.2.kind = pr.2.kind ∧
  qr.2.pname = pr.2.pname

/-- A two-pair folder whose second pair points its headers at a file
that does not exist. -/
def brokenFolder2 : List DFile :=
  [⟨⟨1, 1, .up⟩, none⟩, ⟨⟨1, 1, .down⟩, none⟩,
   ⟨⟨2, 2, .up⟩, some (some ⟨9, 9, .up⟩)⟩, ⟨⟨2, 2, .down⟩, some (some ⟨9, 9, .down⟩)⟩]

/-- The pair list read back from brokenFolder2. -/
def brokenPairs2 : List (MFile × MFile) :=
  [(⟨1000000, 1, .up, ⟨1, 1, .up⟩, none⟩, ⟨1000000, 1, .down, ⟨1, 1, .down⟩, none⟩),
   (⟨2000000, 2, .up, ⟨2, 2, .up⟩, some (some ⟨9, 9, .up⟩)⟩,
    ⟨2000000, 2, .down, ⟨2, 2, .down⟩, some (some ⟨9, 9, .down⟩)⟩)]

/-- The joined rows a node table collects from its processed safe
children, in iteration order. -/
def nodeJoined (g : SGraph) (st : SState) (t : STable) : List Row :=
  (childrenOrdered g t).foldl (fun a c => pkInsert a (joinRows st t c)) []

/-- The temporary rows of a node table: the child joins topped up with
an extra row choice when short of the target size. -/
def nodeTmp (g : SGraph) (σ : Nat → List Row → List Row) (st : SState) (t : STable) :
    List Row :=
  if (nodeJoined g st t).length < tableSize t then
    nodeJoined g st t ++
      (σ t.tid (t.rows.filter
        (fun r => !((nodeJoined g st t).any (fun q => q.pk == r.pk))))).take
        (tableSize t - (nodeJoined g st t).length)
  else nodeJoined g st t

/-- The invariant of the temp-table creation loop: processed ids name
non-ignored tables, temporary rows come from the source rows, and each
processed table was built after its safe children with every child
reference into it satisfied. -/
def sInv (g : SGraph) (st : SState) : Prop :=
  (∀ i ∈ st.procd, ∃ t ∈ g, t.tid = i ∧ t.ign = false) ∧
  (∀ t ∈ g, isProcd st t.tid = true → ∀ r ∈ tmpRows st t.tid, r ∈ t.rows) ∧
  (∀ u ∈ g, isProcd st u.tid = true → ∀ c ∈ childrenSafe g u,
    isProcd st c.tid = true ∧
    (∀ s ∈ tmpRows st c.tid, ∀ j ∈ fkIdxs c u.tid, ∀ v,
      s.refs.get? j = some (some v) → ∃ p ∈ tmpRows st u.tid, p.pk = v))

/-- A worklist whose ids all name non-ignored tables of the schema. -/
def validIds (g : SGraph) (w : List Nat) : Prop :=
  ∀ i ∈ w, ∃ t ∈ g, t.tid = i ∧ t.ign = false

/-- The source database satisfies its foreign keys: every reference of
every row finds its primary key in every table carrying the referenced
id. -/
def srcOkB (g : SGraph) : Bool :=
  g.all fun t => t.rows.all fun r => (List.range t.fks.length).all fun j =>
    match t.fks.get? j, r.refs.get? j with
    | some u, some (some v) =>
      g.all (fun p => !(p.tid == u) || p.rows.any (fun q => q.pk == v))
    | _, _ => true

/-- A row choice keeping only the row with primary key two. -/
def sigEx : Nat → List Row → List Row := fun _ rs => rs.filter (fun r => r.pk == 2)

/-- A single table with a foreign key to itself; row two references
row one. -/
def gEx : SGraph := [⟨0, [0], false, 50, [⟨1, [none]⟩, ⟨2, [some 1]⟩]⟩]

/-- The state sample_database produces on gEx with sigEx: only row two
was copied. -/
def stEx : SState := ⟨[(0, [⟨2, [some 1]⟩])], [0]⟩

/-- A parent table and a child referencing it, both sampled at one
hundred percent. -/
def gW : SGraph :=
  [⟨0, [], false, 100, [⟨10, []⟩, ⟨11, []⟩]⟩,
   ⟨1, [0], false, 100, [⟨20, [some 10]⟩]⟩]

/-- The state sample_database produces on gW with the identity row
choice. -/
def stW : SState :=
  ⟨[(0, [⟨10, []⟩, ⟨11, []⟩]), (1, [⟨20, [some 10]⟩])], [0, 1]⟩

/-! ## Theorems -/

/-! ### Generic helper lemmas -/

theorem mapME_cons (f : α → Except ε β) (x : α) (xs : List α) :
    mapME f (x :: xs) =
      match f x with
      | .error e => .error e
      | .ok y =>
        match mapME f xs with
        | .error e => .error e
        | .ok ys => .ok (y :: ys) := by
  simp only [mapME, bind, Except.bind]
  cases f x <;> simp
  cases mapME f xs <;> simp

theorem mapME_error_of_mem {f : α → Except ε β} {l : List α} {x : α}
    (hx : x ∈ l) (e : ε) (he : f x = .error e) : ∃ d, mapME f l = .error d := by
  induction l with
  | nil => cases hx
  | cons a as ih =>
    rw [mapME_cons]
    rcases List.mem_cons.mp hx with h | h
    · subst h
      exact ⟨e, by rw [he]⟩
    · rcases ih h with ⟨d, hd⟩
      cases hfa : f a with
      | error e2 => exact ⟨e2, rfl⟩
      | ok y => exact ⟨d, by rw [hd]⟩

/-! ### C7: sample-percentage resolution and size computation -/

/-- C7 counterexample: with a per-table override of five halves
percent and one thousand rows, load_config stores int(2.5) = 2 and
process_table computes 20 rows, while the claimed formula
floor(rowCount times percent over 100) gives 25. -/
theorem c7_counterexample :
    loadSampleSize (some ⟨some (5 / 2), false⟩) none none = some 2 ∧
    sizeFromPct 1000 2 = 20 ∧
    claimSize 1000 (5 / 2) = 25 ∧
    ((sizeFromPct 1000 2 : Int) = claimSize 1000 (5 / 2) → False) := by
  refine ⟨?_, by decide, ?_, ?_⟩
  · simp [loadSampleSize, getFirst3]
    norm_num
    decide
  · simp [claimSize]
    norm_num
  · intro h
    rw [show sizeFromPct 1000 2 = 20 by decide] at h
    rw [show claimSize 1000 (5 / 2) = 25 by simp [claimSize]; norm_num] at h
    exact absurd h (by decide)

/-- C7 (amended): for every table, load_config resolves the percentage
as the first non-null of per-table, per-schema and global samples,
converted by int() (truncation), failing when all three are null, and
process_table computes the size as the integer floor of
rowCount times the truncated percentage over 100. -/
theorem c7_amended (tq gq : Option ℚ) (sc : Option CfgSchema) (tign : Bool)
    (count pct : Nat) :
    (∀ q : ℚ, tq = some q →
      loadSampleSize (some ⟨tq, tign⟩) sc gq = some ⌊q⌋.toNat) ∧
    (tq = none → ∀ q : ℚ,
      (match sc with | none => none | some c => c.sampleS) = some q →
      loadSampleSize (some ⟨tq, tign⟩) sc gq = some ⌊q⌋.toNat) ∧
    (tq = none → (match sc with | none => none | some c => c.sampleS) = none →
      loadSampleSize (some ⟨tq, tign⟩) sc gq = gq.map (fun q => ⌊q⌋.toNat)) ∧
    sizeFromPct count pct = ⌊((count * pct : Nat) : ℚ) / 100⌋₊ := by
  refine ⟨?_, ?_, ?_, ?_⟩
  · rintro q rfl
    cases sc <;> simp [loadSampleSize, getFirst3]
  · rintro rfl q hq
    cases sc <;> simp_all [loadSampleSize, getFirst3]
  · rintro rfl hq
    cases sc <;> cases gq <;> simp_all [loadSampleSize, getFirst3]
  · rw [show ((100 : ℚ)) = ((100 : Nat) : ℚ) by norm_num, Nat.floor_div_nat,
      Nat.floor_natCast]
    rfl

/-- C7 amended witness: the resolution chain at a concrete input where
all three levels are set, and the size formula at concrete numbers. -/
theorem c7_amended_witness :
    loadSampleSize (some ⟨some 30, false⟩) (some ⟨some 10⟩) (some 5) = some 30 ∧
    sizeFromPct 7 50 = 3 := by
  constructor
  · have h := (c7_amended (some 30) (some 5) (some ⟨some 10⟩) false 0 0).1 30 rfl
    rw [h]
    norm_num
    decide
  · decide

/-! ### C10: strict file-name parsing in get_files -/

/-- C10: whenever a folder holds a file matching the *.sql glob whose
name does not split on the dash into exactly three segments with a
decimal first segment, get_files raises instead of skipping it. -/
theorem c10_get_files_fails (folder : List PStr) (nm : PStr)
    (h1 : nm ∈ folder) (h2 : endsWithL nm (strtl (".sql")) = true)
    (h3 : (splitCh '-' nm).length ≠ 3 ∨
      ∃ ts rest, splitCh '-' nm = ts :: rest ∧ pyIntNat ts = none) :
    ∃ e, getFilesNames folder = .error e := by
  have hmem : nm ∈ folder.filter (fun s => endsWithL s (strtl (".sql"))) :=
    List.mem_filter.mpr ⟨h1, h2⟩
  have herr : ∃ e, parseFName nm = .error e := by
    unfold parseFName
    rcases h3 with h3 | ⟨ts, rest, hsp, hint⟩
    · rcases hs : splitCh '-' nm with _ | ⟨a, _ | ⟨b, _ | ⟨c, _ | ⟨d, l⟩⟩⟩⟩ <;>
        simp_all
    · rcases hs : splitCh '-' nm with _ | ⟨a, _ | ⟨b, _ | ⟨c, _ | ⟨d, l⟩⟩⟩⟩ <;>
        simp_all
  rcases herr with ⟨e, he⟩
  exact mapME_error_of_mem hmem e he

/-- C10 witness: a folder with one valid name and one name carrying an
extra dash-separated segment makes get_files raise; so does a
non-numeric timestamp segment. -/
theorem c10_witness :
    (∃ e, getFilesNames [strtl ("5-abcd-up.sql"), strtl ("5-ab-cd-up.sql")] = .error e) ∧
    (∃ e, getFilesNames [strtl ("abc-def-up.sql")] = .error e) := by
  constructor
  · exact c10_get_files_fails _ (strtl ("5-ab-cd-up.sql")) (by decide) (by decide)
      (Or.inl (by decide))
  · exact c10_get_files_fails _ (strtl ("abc-def-up.sql")) (by decide) (by decide)
      (Or.inr ⟨strtl ("abc"), [strtl ("def"), strtl ("up.sql")], by decide, by decide⟩)

/-! ### C9: a skip-verify-only header is dropped and not honoured -/

/-- C9: when the parsed header of a file body has no truthy prev_file,
author or version, from_file stores no header even if a Skip-verify
line was recognized, the skip_verify property is false, and
migrate_verify (without only-last selection) does not skip the pair. -/
theorem c9_skip_only_header_dropped (body : PStr) (i nbm nf : Nat)
    (h1 : truthyS (headerFromText body).prev_file = false)
    (h2 : truthyS (headerFromText body).author = false)
    (h3 : truthyS (headerFromText body).version = false)
    (h4 : (headerFromText body).skip_verify = true) :
    headerOfFile body = none ∧
    skipVerifyOf (headerOfFile body) = false ∧
    shouldSkipPair (headerOfFile body) false i nbm nf = false := by
  have hnone : headerOfFile body = none := by
    unfold headerOfFile
    simp [isEmptyH, h1, h2, h3]
  refine ⟨hnone, ?_, ?_⟩
  · rw [hnone]
    rfl
  · rw [hnone]
    rfl

/-- C9 witness: a body holding only a Skip-verify comment line and SQL
text is verified anyway. -/
theorem c9_witness :
    skipVerifyOf (headerOfFile (strtl ("-- Skip-verify: flaky\nDROP TABLE t;"))) = false ∧
    (headerFromText (strtl ("-- Skip-verify: flaky\nDROP TABLE t;"))).skip_verify = true := by
  refine ⟨(c9_skip_only_header_dropped _ 0 1 4 (by decide) (by decide) (by decide)
    (by decide)).2.1, by decide⟩

/-! ### C4: header round trip -/

theorem splitCh_of_not_mem {c : Char} {a : PStr} (h : c ∉ a) : splitCh c a = [a] := by
  induction a with
  | nil => rfl
  | cons x xs ih =>
    have hx : ¬x = c := fun hc => h (hc ▸ List.mem_cons_self x xs)
    have hxs : c ∉ xs := fun hc => h (List.mem_cons_of_mem x hc)
    simp only [splitCh, if_neg hx, ih hxs]

theorem splitCh_append {c : Char} {a : PStr} (b : PStr) (h : c ∉ a) :
    splitCh c (a ++ c :: b) = a :: splitCh c b := by
  induction a with
  | nil => simp [splitCh]
  | cons x xs ih =>
    have hx : ¬x = c := fun hc => h (hc ▸ List.mem_cons_self x xs)
    have hxs : c ∉ xs := fun hc => h (List.mem_cons_of_mem x hc)
    have hrec := ih hxs
    simp only [List.cons_append, splitCh, if_neg hx, List.append_eq, hrec]

theorem pfxOf_append (p r : PStr) : pfxOf p (p ++ r) = true := by
  induction p with
  | nil => rfl
  | cons x xs ih => simp [pfxOf, ih]

theorem pfxOf_take {p s : PStr} (h : pfxOf p s = true) (n : Nat) :
    pfxOf (p.take n) (s.take n) = true := by
  induction p generalizing s n with
  | nil => simp [pfxOf, List.take_nil]
  | cons x xs ih =>
    cases s with
    | nil => simp [pfxOf] at h
    | cons y ys =>
      simp only [pfxOf, Bool.and_eq_true, beq_iff_eq] at h
      cases n with
      | zero => rfl
      | succ m =>
        simp only [List.take_succ_cons, pfxOf, Bool.and_eq_true, beq_iff_eq]
        exact ⟨h.1, ih h.2 m⟩

theorem pfxOf_append_false (p q r : PStr)
    (h : pfxOf (p.take q.length) q = false) : pfxOf p (q ++ r) = false := by
  by_contra hc
  have ht := pfxOf_take (Bool.of_not_eq_false hc) q.length
  rw [List.take_left] at ht
  rw [ht] at h
  cases h

theorem dropEndWhile_length_le (p : Char → Bool) (l : PStr) :
    (dropEndWhile p l).length ≤ l.length := by
  unfold dropEndWhile
  have := (List.dropWhile_suffix (l := l.reverse) p).length_le
  simpa using this

theorem dropWhile_eq_self_of_strip {v : PStr} (h : pyStrip v = v) :
    v.dropWhile pySpace = v := by
  have hsuf := List.dropWhile_suffix (l := v) pySpace
  have hlen1 : (pyStrip v).length ≤ (v.dropWhile pySpace).length :=
    dropEndWhile_length_le pySpace _
  have hlen2 : (v.dropWhile pySpace).length ≤ v.length := hsuf.length_le
  have hlen : (v.dropWhile pySpace).length = v.length := by
    rw [h] at hlen1
    omega
  exact hsuf.eq_of_length hlen

theorem dropEndWhile_eq_self_of_strip {v : PStr} (h : pyStrip v = v) :
    dropEndWhile pySpace v = v := by
  have h1 := dropWhile_eq_self_of_strip h
  unfold pyStrip at h
  rw [h1] at h
  exact h

theorem dropWhile_head_not_space {w : PStr} {c : Char}
    (h : w.dropWhile pySpace = w) (hc : w.head? = some c) : pySpace c = false := by
  cases w with
  | nil => cases hc
  | cons x xs =>
    have hx : x = c := by
      simpa using hc
    subst hx
    by_contra hsp
    have hsp' : pySpace x = true := Bool.of_not_eq_false hsp
    rw [List.dropWhile_cons, if_pos hsp'] at h
    have hle := (List.dropWhile_suffix (l := xs) pySpace).length_le
    rw [h] at hle
    simp at hle

theorem strip_head_not_space {v : PStr} {c : Char} (h : pyStrip v = v)
    (hc : v.head? = some c) : pySpace c = false :=
  dropWhile_head_not_space (dropWhile_eq_self_of_strip h) hc

theorem strip_last_not_space {v : PStr} {c : Char} (h : pyStrip v = v)
    (hc : v.getLast? = some c) : pySpace c = false := by
  have h2 := dropEndWhile_eq_self_of_strip h
  unfold dropEndWhile at h2
  have h3 : v.reverse.dropWhile pySpace = v.reverse := by
    have := congrArg List.reverse h2
    simpa using this
  have hhead : v.reverse.head? = some c := by
    rw [List.head?_reverse]
    exact hc
  exact dropWhile_head_not_space h3 hhead

theorem pyStrip_eq_self_of {s : PStr}
    (hh : ∀ c, s.head? = some c → pySpace c = false)
    (hl : ∀ c, s.getLast? = some c → pySpace c = false) : pyStrip s = s := by
  cases s with
  | nil => rfl
  | cons x xs =>
    have hx : pySpace x = false := hh x rfl
    unfold pyStrip
    rw [List.dropWhile_cons, if_neg (by simp [hx])]
    unfold dropEndWhile
    rcases hrev : (x :: xs).reverse with _ | ⟨y, ys⟩
    · simp at hrev
    · have hy : (x :: xs).getLast? = some y := by
        rw [← List.head?_reverse, hrev]
        rfl
      have hys : pySpace y = false := hl y hy
      rw [List.dropWhile_cons, if_neg (by simp [hys])]
      rw [← hrev]
      simp

theorem pyStrip_space_cons {v : PStr} (h : pyStrip v = v) :
    pyStrip (' ' :: v) = v := by
  unfold pyStrip
  rw [List.dropWhile_cons, if_pos (by decide)]
  exact h

theorem seg1_line {pfxBody v : PStr} (hb : ':' ∉ pfxBody) (hv : ':' ∉ v) :
    seg1 ':' (pfxBody ++ ':' :: (' ' :: v)) = ' ' :: v := by
  unfold seg1
  rw [splitCh_append _ hb, splitCh_of_not_mem (by simp [hv])]
  rfl

theorem scanLine_prev (st : HStScan) {v : PStr} (hv : ':' ∉ v)
    (hs : pyStrip v = v) :
    scanLine st ((pfxPrev ++ [' ']) ++ v) = { st with p := some v } := by
  have hline : (pfxPrev ++ [' ']) ++ v = strtl ("-- Prev-file") ++ ':' :: (' ' :: v) := by
    simp [pfxPrev, strtl]
  unfold scanLine
  rw [if_pos]
  · rw [hline, seg1_line (by decide) hv, pyStrip_space_cons hs]
  · rw [List.append_assoc]
    exact pfxOf_append _ _

theorem scanLine_author (st : HStScan) {v : PStr} (hv : ':' ∉ v)
    (hs : pyStrip v = v) :
    scanLine st ((pfxAuthor ++ [' ']) ++ v) = { st with a := some v } := by
  have hline : (pfxAuthor ++ [' ']) ++ v = strtl ("-- Author") ++ ':' :: (' ' :: v) := by
    simp [pfxAuthor, strtl]
  unfold scanLine
  rw [if_neg, if_pos]
  · rw [hline, seg1_line (by decide) hv, pyStrip_space_cons hs]
  · rw [List.append_assoc]
    exact pfxOf_append _ _
  · rw [List.append_assoc]
    simp only [pfxAuthor, strtl]
    rw [pfxOf_append_false _ _ _ (by decide)]
    simp

theorem scanLine_version (st : HStScan) {v : PStr} (hv : ':' ∉ v)
    (hs : pyStrip v = v) :
    scanLine st ((pfxVersion ++ [' ']) ++ v) = { st with v := some v } := by
  have hline : (pfxVersion ++ [' ']) ++ v = strtl ("-- Version") ++ ':' :: (' ' :: v) := by
    simp [pfxVersion, strtl]
  unfold scanLine
  rw [if_neg, if_neg, if_pos]
  · rw [hline, seg1_line (by decide) hv, pyStrip_space_cons hs]
  · rw [List.append_assoc]
    exact pfxOf_append _ _
  · rw [List.append_assoc]
    simp only [pfxVersion, strtl]
    rw [pfxOf_append_false _ _ _ (by decide)]
    simp
  · rw [List.append_assoc]
    simp only [pfxVersion, strtl]
    rw [pfxOf_append_false _ _ _ (by decide)]
    simp

theorem scanLine_skip (st : HStScan) {v : PStr} (hv : ':' ∉ v)
    (hs : pyStrip v = v) (hlow : pyLower v = v) :
    scanLine st ((pfxSkip ++ [' ']) ++ v) = { st with sr := some v, sv := true } := by
  have hline : (pfxSkip ++ [' ']) ++ v = strtl ("-- Skip-verify") ++ ':' :: (' ' :: v) := by
    simp [pfxSkip, strtl]
  unfold scanLine
  rw [if_neg, if_neg, if_neg, if_pos]
  · rw [hline, seg1_line (by decide) hv, pyStrip_space_cons hs, hlow]
  · rw [List.append_assoc]
    exact pfxOf_append _ _
  · rw [List.append_assoc]
    simp only [pfxSkip, strtl]
    rw [pfxOf_append_false _ _ _ (by decide)]
    simp
  · rw [List.append_assoc]
    simp only [pfxSkip, strtl]
    rw [pfxOf_append_false _ _ _ (by decide)]
    simp
  · rw [List.append_assoc]
    simp only [pfxSkip, strtl]
    rw [pfxOf_append_false _ _ _ (by decide)]
    simp

theorem head?_append_of_some {l w : PStr} {c : Char} (h : l.head? = some c) :
    (l ++ w).head? = some c := by
  cases l with
  | nil => cases h
  | cons x xs => simpa using h

theorem getLast?_append_ne {l w : PStr} (hw : w ≠ []) :
    (l ++ w).getLast? = w.getLast? := by
  rw [List.getLast?_append]
  rcases hlw : w.getLast? with _ | d
  · exact absurd (List.getLast?_eq_none_iff.mp hlw) hw
  · rfl

theorem joinNL_ne_nil {ls : List PStr} (h1 : ls ≠ [])
    (h2 : ∀ l ∈ ls, l ≠ []) : joinNL ls ≠ [] := by
  cases ls with
  | nil => exact absurd rfl h1
  | cons x xs =>
    cases xs with
    | nil => exact h2 x (List.mem_cons_self x [])
    | cons y ys =>
      show x ++ '\n' :: joinNL (y :: ys) ≠ []
      simp

theorem joinNL_getLast_not_space :
    ∀ (ls : List PStr),
      (∀ l ∈ ls, l ≠ [] ∧ ∀ c, l.getLast? = some c → pySpace c = false) →
      ∀ c, (joinNL ls).getLast? = some c → pySpace c = false := by
  intro ls
  induction ls with
  | nil => intro _ c hc; cases hc
  | cons x xs ih =>
    intro hL c hc
    cases xs with
    | nil => exact (hL x (List.mem_cons_self x [])).2 c hc
    | cons y ys =>
      have hx : joinNL (x :: y :: ys) = x ++ '\n' :: joinNL (y :: ys) := rfl
      rw [hx] at hc
      have hjne : joinNL (y :: ys) ≠ [] :=
        joinNL_ne_nil (by simp) (fun l hl => (hL l (List.mem_cons_of_mem x hl)).1)
      rw [getLast?_append_ne (by simp)] at hc
      have : ('\n' :: joinNL (y :: ys)).getLast? = (joinNL (y :: ys)).getLast? := by
        rw [show ('\n' :: joinNL (y :: ys)) = ['\n'] ++ joinNL (y :: ys) from rfl,
          getLast?_append_ne hjne]
      rw [this] at hc
      exact ih (fun l hl => hL l (List.mem_cons_of_mem x hl)) c hc

theorem splitCh_joinNL :
    ∀ (ls : List PStr), ls ≠ [] → (∀ l ∈ ls, '\n' ∉ l) →
      splitCh '\n' (joinNL ls) = ls := by
  intro ls
  induction ls with
  | nil => intro h; exact absurd rfl h
  | cons x xs ih =>
    intro _ hL
    cases xs with
    | nil => exact splitCh_of_not_mem (hL x (List.mem_cons_self x []))
    | cons y ys =>
      have hx : joinNL (x :: y :: ys) = x ++ '\n' :: joinNL (y :: ys) := rfl
      rw [hx, splitCh_append _ (hL x (List.mem_cons_self x (y :: ys))),
        ih (by simp) (fun l hl => hL l (List.mem_cons_of_mem x hl))]


theorem joinNL_head? {x : PStr} (xs : List PStr) (hx : x ≠ []) :
    (joinNL (x :: xs)).head? = x.head? := by
  cases xs with
  | nil => rfl
  | cons y ys =>
    show (x ++ '\n' :: joinNL (y :: ys)).head? = x.head?
    cases x with
    | nil => exact absurd rfl hx
    | cons c cs => rfl

theorem stripJoin2 (x : PStr) (xs : List PStr)
    (hL : ∀ l ∈ x :: xs, l ≠ [] ∧
      (∀ c, l.head? = some c → pySpace c = false) ∧
      (∀ c, l.getLast? = some c → pySpace c = false)) :
    pyStrip (joinNL (x :: xs)) = joinNL (x :: xs) := by
  apply pyStrip_eq_self_of
  · intro c hc
    rw [joinNL_head? xs (hL x (List.mem_cons_self x xs)).1] at hc
    exact (hL x (List.mem_cons_self x xs)).2.1 c hc
  · exact joinNL_getLast_not_space (x :: xs) (fun l hl => ⟨(hL l hl).1, (hL l hl).2.2⟩)

/-- The four recognized line markers. -/
def isMarker (q : PStr) : Prop :=
  q = pfxPrev ∨ q = pfxAuthor ∨ q = pfxVersion ∨ q = pfxSkip

theorem lineFacts {q w : PStr} (hq : isMarker q) (hw : cleanV w) :
    ((q ++ [' ']) ++ w) ≠ [] ∧ '\n' ∉ ((q ++ [' ']) ++ w) ∧
    (∀ c, ((q ++ [' ']) ++ w).head? = some c → pySpace c = false) ∧
    (∀ c, ((q ++ [' ']) ++ w).getLast? = some c → pySpace c = false) := by
  obtain ⟨hwn, _, hws, hwne⟩ := hw
  have hqh : (q ++ [' ']).head? = some '-' := by
    rcases hq with rfl | rfl | rfl | rfl <;> decide
  have hqn : '\n' ∉ q ++ [' '] := by
    rcases hq with rfl | rfl | rfl | rfl <;> decide
  refine ⟨by simp, ?_, ?_, ?_⟩
  · intro hmem
    rcases List.mem_append.mp hmem with hm | hm
    · exact hqn hm
    · exact hwn hm
  · intro c hc
    have h2 := head?_append_of_some (w := w) hqh
    rw [h2] at hc
    cases hc
    decide
  · intro c hc
    rw [getLast?_append_ne hwne] at hc
    exact strip_last_not_space hws hc

/-- C4 counterexample: the header with all fields absent serializes to
the two marker lines with empty values, which parse back as empty
strings rather than None, so the round trip does not preserve the
recognized fields. -/
theorem c4_counterexample :
    headerFromText (headerAsText (mkHeader none none none false none)) ≠
      mkHeader none none none false none ∧
    (headerFromText (headerAsText (mkHeader none none none false none))).prev_file =
      some [] ∧
    (headerFromText (headerAsText (mkHeader none none none false none))).author =
      some [] := by
  refine ⟨by decide, by decide, by decide⟩

/-- C4 (amended): parsing the serialized header preserves every
recognized field provided prev_file and author are present with clean
nonempty values (no newline, no colon, no surrounding whitespace),
version is absent or such a value, and skip_reason, present exactly
when skip_verify is set, is such a value already in lowercase.  A None
prev_file or author comes back as the empty string, values are
stripped, and the skip reason is lowercased, so the restrictions are
necessary. -/
theorem c4_amended (h : PyHeader)
    (hp : ∃ p, h.prev_file = some p ∧ cleanV p)
    (ha : ∃ a, h.author = some a ∧ cleanV a)
    (hv : h.version = none ∨ ∃ v, h.version = some v ∧ cleanV v)
    (hs : h.skip_verify = true →
      ∃ r, h.skip_reason = some r ∧ cleanV r ∧ pyLower r = r)
    (hn : h.skip_verify = false → h.skip_reason = none) :
    headerFromText (headerAsText h) = h := by
  obtain ⟨p, hpe, hpc⟩ := hp
  obtain ⟨a, hae, hac⟩ := ha
  obtain ⟨fp, fa, fv, fsv, fsr⟩ := h
  simp only at hpe hae hv hs hn
  subst hpe hae
  have lfp := lineFacts (Or.inl rfl) hpc
  have lfa := lineFacts (Or.inr (Or.inl rfl)) hac
  cases fsv with
  | false =>
    have hsr : fsr = none := hn rfl
    subst hsr
    rcases hv with hv | ⟨v, hv, hvc⟩
    · subst hv
      have hlines : headerLines ⟨some p, some a, none, false, none⟩ =
          [(pfxPrev ++ [' ']) ++ p, (pfxAuthor ++ [' ']) ++ a] := by
        simp [headerLines, orEmpty]
      have hmem : ∀ l ∈ [(pfxPrev ++ [' ']) ++ p, (pfxAuthor ++ [' ']) ++ a],
          l ≠ [] ∧ (∀ c, l.head? = some c → pySpace c = false) ∧
          (∀ c, l.getLast? = some c → pySpace c = false) := by
        intro l hl
        rcases List.mem_cons.mp hl with rfl | hl
        · exact ⟨lfp.1, lfp.2.2.1, lfp.2.2.2⟩
        · rcases List.mem_cons.mp hl with rfl | hl
          · exact ⟨lfa.1, lfa.2.2.1, lfa.2.2.2⟩
          · cases hl
      have hstrip := stripJoin2 _ _ hmem
      have hsplit := splitCh_joinNL [(pfxPrev ++ [' ']) ++ p, (pfxAuthor ++ [' ']) ++ a]
        (by simp) (by
          intro l hl
          rcases List.mem_cons.mp hl with rfl | hl
          · exact lfp.2.1
          · rcases List.mem_cons.mp hl with rfl | hl
            · exact lfa.2.1
            · cases hl)
      unfold headerAsText headerFromText
      rw [hlines, hstrip, hsplit]
      simp only [List.foldl_cons, List.foldl_nil]
      rw [scanLine_prev _ hpc.2.1 hpc.2.2.1, scanLine_author _ hac.2.1 hac.2.2.1]
      simp [mkHeader]
    · subst hv
      have lfv := lineFacts (Or.inr (Or.inr (Or.inl rfl))) hvc
      have hlines : headerLines ⟨some p, some a, some v, false, none⟩ =
          [(pfxPrev ++ [' ']) ++ p, (pfxAuthor ++ [' ']) ++ a,
           (pfxVersion ++ [' ']) ++ v] := by
        simp [headerLines, orEmpty]
      have hmem : ∀ l ∈ [(pfxPrev ++ [' ']) ++ p, (pfxAuthor ++ [' ']) ++ a,
          (pfxVersion ++ [' ']) ++ v],
          l ≠ [] ∧ (∀ c, l.head? = some c → pySpace c = false) ∧
          (∀ c, l.getLast? = some c → pySpace c = false) := by
        intro l hl
        rcases List.mem_cons.mp hl with rfl | hl
        · exact ⟨lfp.1, lfp.2.2.1, lfp.2.2.2⟩
        · rcases List.mem_cons.mp hl with rfl | hl
          · exact ⟨lfa.1, lfa.2.2.1, lfa.2.2.2⟩
          · rcases List.mem_cons.mp hl with rfl | hl
            · exact ⟨lfv.1, lfv.2.2.1, lfv.2.2.2⟩
            · cases hl
      have hstrip := stripJoin2 _ _ hmem
      have hsplit := splitCh_joinNL [(pfxPrev ++ [' ']) ++ p, (pfxAuthor ++ [' ']) ++ a,
          (pfxVersion ++ [' ']) ++ v]
        (by simp) (by
          intro l hl
          rcases List.mem_cons.mp hl with rfl | hl
          · exact lfp.2.1
          · rcases List.mem_cons.mp hl with rfl | hl
            · exact lfa.2.1
            · rcases List.mem_cons.mp hl with rfl | hl
              · exact lfv.2.1
              · cases hl)
      unfold headerAsText headerFromText
      rw [hlines, hstrip, hsplit]
      simp only [List.foldl_cons, List.foldl_nil]
      rw [scanLine_prev _ hpc.2.1 hpc.2.2.1, scanLine_author _ hac.2.1 hac.2.2.1,
        scanLine_version _ hvc.2.1 hvc.2.2.1]
      simp [mkHeader]
  | true =>
    obtain ⟨r, hre, hrc, hrl⟩ := hs rfl
    subst hre
    have lfr := lineFacts (Or.inr (Or.inr (Or.inr rfl))) hrc
    have hremp : r.isEmpty = false := by
      cases hr : r with
      | nil => exact absurd hr hrc.2.2.2
      | cons c cs => rfl
    rcases hv with hv | ⟨v, hv, hvc⟩
    · subst hv
      have hlines : headerLines ⟨some p, some a, none, true, some r⟩ =
          [(pfxPrev ++ [' ']) ++ p, (pfxAuthor ++ [' ']) ++ a,
           (pfxSkip ++ [' ']) ++ r] := by
        simp [headerLines, orEmpty, hremp]
      have hmem : ∀ l ∈ [(pfxPrev ++ [' ']) ++ p, (pfxAuthor ++ [' ']) ++ a,
          (pfxSkip ++ [' ']) ++ r],
          l ≠ [] ∧ (∀ c, l.head? = some c → pySpace c = false) ∧
          (∀ c, l.getLast? = some c → pySpace c = false) := by
        intro l hl
        rcases List.mem_cons.mp hl with rfl | hl
        · exact ⟨lfp.1, lfp.2.2.1, lfp.2.2.2⟩
        · rcases List.mem_cons.mp hl with rfl | hl
          · exact ⟨lfa.1, lfa.2.2.1, lfa.2.2.2⟩
          · rcases List.mem_cons.mp hl with rfl | hl
            · exact ⟨lfr.1, lfr.2.2.1, lfr.2.2.2⟩
            · cases hl
      have hstrip := stripJoin2 _ _ hmem
      have hsplit := splitCh_joinNL [(pfxPrev ++ [' ']) ++ p, (pfxAuthor ++ [' ']) ++ a,
          (pfxSkip ++ [' ']) ++ r]
        (by simp) (by
          intro l hl
          rcases List.mem_cons.mp hl with rfl | hl
          · exact lfp.2.1
          · rcases List.mem_cons.mp hl with rfl | hl
            · exact lfa.2.1
            · rcases List.mem_cons.mp hl with rfl | hl
              · exact lfr.2.1
              · cases hl)
      unfold headerAsText headerFromText
      rw [hlines, hstrip, hsplit]
      simp only [List.foldl_cons, List.foldl_nil]
      rw [scanLine_prev _ hpc.2.1 hpc.2.2.1, scanLine_author _ hac.2.1 hac.2.2.1,
        scanLine_skip _ hrc.2.1 hrc.2.2.1 hrl]
      simp [mkHeader]
    · subst hv
      have lfv := lineFacts (Or.inr (Or.inr (Or.inl rfl))) hvc
      have hlines : headerLines ⟨some p, some a, some v, true, some r⟩ =
          [(pfxPrev ++ [' ']) ++ p, (pfxAuthor ++ [' ']) ++ a,
           (pfxVersion ++ [' ']) ++ v, (pfxSkip ++ [' ']) ++ r] := by
        simp [headerLines, orEmpty, hremp]
      have hmem : ∀ l ∈ [(pfxPrev ++ [' ']) ++ p, (pfxAuthor ++ [' ']) ++ a,
          (pfxVersion ++ [' ']) ++ v, (pfxSkip ++ [' ']) ++ r],
          l ≠ [] ∧ (∀ c, l.head? = some c → pySpace c = false) ∧
          (∀ c, l.getLast? = some c → pySpace c = false) := by
        intro l hl
        rcases List.mem_cons.mp hl with rfl | hl
        · exact ⟨lfp.1, lfp.2.2.1, lfp.2.2.2⟩
        · rcases List.mem_cons.mp hl with rfl | hl
          · exact ⟨lfa.1, lfa.2.2.1, lfa.2.2.2⟩
          · rcases List.mem_cons.mp hl with rfl | hl
            · exact ⟨lfv.1, lfv.2.2.1, lfv.2.2.2⟩
            · rcases List.mem_cons.mp hl with rfl | hl
              · exact ⟨lfr.1, lfr.2.2.1, lfr.2.2.2⟩
              · cases hl
      have hstrip := stripJoin2 _ _ hmem
      have hsplit := splitCh_joinNL [(pfxPrev ++ [' ']) ++ p, (pfxAuthor ++ [' ']) ++ a,
          (pfxVersion ++ [' ']) ++ v, (pfxSkip ++ [' ']) ++ r]
        (by simp) (by
          intro l hl
          rcases List.mem_cons.mp hl with rfl | hl
          · exact lfp.2.1
          · rcases List.mem_cons.mp hl with rfl | hl
            · exact lfa.2.1
            · rcases List.mem_cons.mp hl with rfl | hl
              · exact lfv.2.1
              · rcases List.mem_cons.mp hl with rfl | hl
                · exact lfr.2.1
                · cases hl)
      unfold headerAsText headerFromText
      rw [hlines, hstrip, hsplit]
      simp only [List.foldl_cons, List.foldl_nil]
      rw [scanLine_prev _ hpc.2.1 hpc.2.2.1, scanLine_author _ hac.2.1 hac.2.2.1,
        scanLine_version _ hvc.2.1 hvc.2.2.1, scanLine_skip _ hrc.2.1 hrc.2.2.1 hrl]
      simp [mkHeader]

/-- C4 amended witness: a fully populated header round trips. -/
theorem c4_amended_witness :
    headerFromText (headerAsText (mkHeader (some (strtl ("1-aa-up.sql")))
      (some (strtl ("dev@x.y"))) (some (strtl ("v2"))) true (some (strtl ("why not"))))) =
    mkHeader (some (strtl ("1-aa-up.sql"))) (some (strtl ("dev@x.y")))
      (some (strtl ("v2"))) true (some (strtl ("why not"))) := by
  exact c4_amended _ ⟨strtl ("1-aa-up.sql"), by decide, by decide⟩
    ⟨strtl ("dev@x.y"), by decide, by decide⟩
    (Or.inr ⟨strtl ("v2"), by decide, by decide⟩)
    (fun _ => ⟨strtl ("why not"), by decide, by decide, by decide⟩)
    (fun hc => by cases hc)


/-- C6 counterexample: on the graph with a root above an
asymmetrically attached two-cycle, the worklist alternates between the
two cycle members, consecutive worklists are never equal, and
create_temp_tables loops forever instead of raising the cycle
error. -/
theorem c6_counterexample : runsForever cycGraph pickAll := by
  have key : ∀ n, runLoop cycGraph pickAll n [1] ⟨[], []⟩ = .error .outOfFuel ∧
      runLoop cycGraph pickAll n [2] ⟨[], []⟩ = .error .outOfFuel := by
    intro n
    induction n with
    | zero => exact ⟨rfl, rfl⟩
    | succ m ih =>
      refine ⟨?_, ?_⟩
      · have h1 : runLoop cycGraph pickAll (m + 1) [1] ⟨[], []⟩ =
            runLoop cycGraph pickAll m [2] ⟨[], []⟩ := rfl
        rw [h1]
        exact ih.2
      · have h2 : runLoop cycGraph pickAll (m + 1) [2] ⟨[], []⟩ =
            runLoop cycGraph pickAll m [1] ⟨[], []⟩ := rfl
        rw [h2]
        exact ih.1
  intro fuel
  cases fuel with
  | zero => rfl
  | succ n =>
    have h0 : createTempTables cycGraph pickAll (n + 1) =
        runLoop cycGraph pickAll n [1] ⟨[], []⟩ := rfl
    rw [h0]
    exact (key n).1

/-- C6 (amended): whenever a full pass leaves the state unchanged and
its accumulated next worklist equals the current one as a set,
create_temp_tables fails with the cycle error, and the error names
exactly the tables whose non-ignored children are not all processed;
on the symmetric concrete graph the error names the root and both
cycle members.  On some cyclic graphs, however, consecutive worklists
are never equal and the loop never terminates. -/
theorem c6_amended (g : SGraph) (σ : Nat → List Row → List Row) (fuel : Nat)
    (w : List Nat) (st : SState) (acc : List Nat)
    (hw : w ≠ [])
    (hpass : runPass g σ w st [] = .ok (st, acc))
    (heq : canonW acc = canonW w) :
    runLoop g σ (fuel + 1) w st = .error (.cyclic (namedCyc g st)) ∧
    (∀ i ∈ namedCyc g st, ∃ t ∈ g, t.tid = i ∧ childrenProcd g st t = false) ∧
    (∀ t ∈ g, childrenProcd g st t = false → t.tid ∈ namedCyc g st) ∧
    createTempTables cycGraphB pickAll 5 = .error (.cyclic [0, 1, 2]) := by
  refine ⟨?_, ?_, ?_, by decide⟩
  · show runLoop g σ (fuel + 1) w st = _
    unfold runLoop
    rw [if_neg (by simp [hw])]
    simp only [bind, Except.bind, hpass]
    rw [if_pos (by rw [heq]; exact beq_self_eq_true _)]
  · intro i hi
    simp only [namedCyc, List.mem_map, List.mem_filter] at hi
    rcases hi with ⟨t, ⟨htg, htc⟩, rfl⟩
    exact ⟨t, htg, rfl, by simpa using htc⟩
  · intro t htg htc
    simp only [namedCyc, List.mem_map, List.mem_filter]
    exact ⟨t, ⟨htg, by simp [htc]⟩, rfl⟩

/-- C6 amended witness: the cycle error raised on the symmetric
two-cycle graph via the pass-level statement. -/
theorem c6_amended_witness :
    runLoop cycGraphB pickAll 3 [1, 2] ⟨[], []⟩ =
      .error (.cyclic (namedCyc cycGraphB ⟨[], []⟩)) := by
  exact (c6_amended cycGraphB pickAll 2 [1, 2] ⟨[], []⟩ [2, 1] (by decide) (by decide)
    (by decide)).1


theorem checkPair_none_iff {p q : MFile × MFile} : checkPair p q = none ↔
    p.1.ts ≤ q.1.ts ∧ p.2.ts ≤ q.2.ts ∧
    hdrBad q.1 p.1 = false ∧ hdrBad q.2 p.2 = false := by
  unfold checkPair
  split_ifs with h1 h2 h3 h4 <;> simp_all <;> omega


theorem hdrBad_false_iff {f prev : MFile} : hdrBad f prev = false ↔
    ∀ ph, f.hdr = some ph → ph = some prev.pname := by
  unfold hdrBad
  cases hf : f.hdr with
  | none => simp
  | some ph => simp

/-- Facts established by a successful raising verification walk: no id
of the remaining pairs is already recorded, the remaining ids are
pairwise distinct, and consecutive pairs pass every check; when the
walk has not yet fixed a first pair, the facts hold for the tail
only. -/
theorem verifyGo_true_ok :
    ∀ (l : List (MFile × MFile)) (prev : Option (MFile × MFile)) (ids : List Nat)
      (acc res : List ((MFile × MFile) × VRec)),
      verifyGo true l prev ids acc = .ok res →
      (∀ p0, prev = some p0 →
        (∀ pr ∈ l, pr.1.fid ∉ ids) ∧ (l.map (fun pr => pr.1.fid)).Nodup ∧
        List.Chain' (fun p q => checkPair p q = none) (p0 :: l)) ∧
      (prev = none →
        (∀ pr ∈ l.drop 1, pr.1.fid ∉ ids) ∧
        ((l.drop 1).map (fun pr => pr.1.fid)).Nodup ∧
        List.Chain' (fun p q => checkPair p q = none) l) := by
  intro l
  induction l with
  | nil =>
    intro prev ids acc res _
    constructor
    · intro p0 _
      exact ⟨fun pr h => absurd h (List.not_mem_nil pr), List.nodup_nil,
        List.chain'_singleton p0⟩
    · intro _
      exact ⟨fun pr h => absurd h (List.not_mem_nil pr), List.nodup_nil, List.chain'_nil⟩
  | cons a rest ih =>
    intro prev ids acc res h
    cases prev with
    | none =>
      have h' : verifyGo true rest (some a) ids acc = .ok res := h
      have hsome := (ih (some a) ids acc res h').1 a rfl
      constructor
      · intro p0 hp0
        cases hp0
      · intro _
        exact ⟨hsome.1, hsome.2.1, hsome.2.2⟩
    | some p =>
      by_cases hmem : a.1.fid ∈ ids
      · exfalso
        simp only [verifyGo, if_pos hmem] at h
        cases h
      · rcases hchk : checkPair p a with _ | e
        · have h' : verifyGo true rest (some a) (a.1.fid :: ids) acc = .ok res := by
            simpa only [verifyGo, if_neg hmem, hchk] using h
          have hsome := (ih (some a) (a.1.fid :: ids) acc res h').1 a rfl
          constructor
          · intro p0 hp0
            cases hp0
            refine ⟨?_, ?_, ?_⟩
            · intro pr hpr
              rcases List.mem_cons.mp hpr with rfl | hpr
              · exact hmem
              · intro hin
                exact (hsome.1 pr hpr) (List.mem_cons_of_mem _ hin)
            · refine List.nodup_cons.mpr ⟨?_, hsome.2.1⟩
              intro hin
              rcases List.mem_map.mp hin with ⟨pr, hpr, hfid⟩
              exact (hsome.1 pr hpr) (by rw [hfid]; exact List.mem_cons_self _ _)
            · exact List.chain'_cons.mpr ⟨hchk, hsome.2.2⟩
          · intro hn
            cases hn
        · exfalso
          simp only [verifyGo, if_neg hmem, hchk] at h
          cases h

/-- C2 counterexample: the duplicate-id folder passes
verify_migration_files with raise_error set, yet its three pairs carry
the file ids 5, 7, 5, which are not pairwise distinct: the first pair
never enters the duplicate-check set. -/
theorem c2_counterexample :
    verifyDisk true dupFolder = .ok [] ∧
    Except.map (fun ps => ps.map (fun pr : MFile × MFile => pr.1.fid))
      (iterPairs (getFilesD dupFolder)) = .ok [5, 7, 5] ∧
    ¬ ([5, 7, 5] : List Nat).Nodup := by
  refine ⟨by decide, by decide, by decide⟩

/-- C2 (amended): for every folder on which verify_migration_files
returns without error under raise_error, the pair sequence sorted by
(ts, fileId) has non-decreasing up and down timestamps, every present
header points at the previous file of its kind, and the file ids of
all pairs after the first are pairwise distinct.  The first pair never
enters the duplicate-check set, so its id may recur later and full
uniqueness does not hold. -/
theorem c2_amended (disk : List DFile) (ps : List (MFile × MFile))
    (h1 : iterPairs (getFilesD disk) = .ok ps)
    (h2 : verifyDisk true disk = .ok []) :
    List.Chain' (fun p q : MFile × MFile =>
      p.1.ts ≤ q.1.ts ∧ p.2.ts ≤ q.2.ts ∧
      (∀ ph, q.1.hdr = some ph → ph = some p.1.pname) ∧
      (∀ ph, q.2.hdr = some ph → ph = some p.2.pname)) ps ∧
    ((ps.drop 1).map (fun pr => pr.1.fid)).Nodup := by
  have h3 : verifyGo true ps none [] [] = .ok [] := by
    unfold verifyDisk at h2
    rw [h1] at h2
    simpa only [bind, Except.bind] using h2
  have hfacts := (verifyGo_true_ok ps none [] [] [] h3).2 rfl
  refine ⟨?_, hfacts.2.1⟩
  refine List.Chain'.imp ?_ hfacts.2.2
  intro p q hpq
  rcases checkPair_none_iff.mp hpq with ⟨hts1, hts2, hb1, hb2⟩
  exact ⟨hts1, hts2, hdrBad_false_iff.mp hb1, hdrBad_false_iff.mp hb2⟩


/-- C2 amended witness: the distinctness conclusion on a concrete
two-pair folder that passes verification. -/
theorem c2_amended_witness :
    ((chainPairs2.drop 1).map (fun pr => pr.1.fid)).Nodup :=
  (c2_amended chainFolder2 chainPairs2 (by decide) (by decide)).2

theorem insM_perm (le : α → α → Bool) (x : α) (l : List α) :
    List.Perm (insM le x l) (x :: l) := by
  induction l with
  | nil => exact List.Perm.refl _
  | cons y ys ih =>
    unfold insM
    by_cases h : le x y
    · rw [if_pos h]
    · rw [if_neg h]
      exact List.Perm.trans (List.Perm.cons y ih) (List.Perm.swap x y ys)

theorem isortM_perm (le : α → α → Bool) (l : List α) :
    List.Perm (isortM le l) l := by
  induction l with
  | nil => exact List.Perm.refl _
  | cons x xs ih =>
    exact List.Perm.trans (insM_perm le x (isortM le xs)) (List.Perm.cons x ih)

theorem isortM_mem (le : α → α → Bool) (l : List α) (a : α) :
    a ∈ isortM le l ↔ a ∈ l := (isortM_perm le l).mem_iff

theorem insM_pairwise {le : α → α → Bool}
    (htrans : ∀ a b c, le a b = true → le b c = true → le a c = true)
    (htotal : ∀ a b, le a b = true ∨ le b a = true) (x : α) {l : List α}
    (h : List.Pairwise (fun a b => le a b = true) l) :
    List.Pairwise (fun a b => le a b = true) (insM le x l) := by
  induction l with
  | nil => exact List.pairwise_singleton _ x
  | cons y ys ih =>
    unfold insM
    rcases List.pairwise_cons.mp h with ⟨hy, hys⟩
    by_cases hle : le x y
    · rw [if_pos hle]
      refine List.pairwise_cons.mpr ⟨?_, h⟩
      intro b hb
      rcases List.mem_cons.mp hb with rfl | hb
      · exact hle
      · exact htrans x y b hle (hy b hb)
    · rw [if_neg hle]
      refine List.pairwise_cons.mpr ⟨?_, ih hys⟩
      intro b hb
      rcases List.mem_cons.mp ((insM_perm le x ys).mem_iff.mp hb) with hbx | hb'
      · rcases htotal x y with h1 | h2
        · exact absurd h1 hle
        · rw [hbx]
          exact h2
      · exact hy b hb'

theorem isortM_pairwise {le : α → α → Bool}
    (htrans : ∀ a b c, le a b = true → le b c = true → le a c = true)
    (htotal : ∀ a b, le a b = true ∨ le b a = true) (l : List α) :
    List.Pairwise (fun a b => le a b = true) (isortM le l) := by
  induction l with
  | nil => exact List.Pairwise.nil
  | cons x xs ih => exact insM_pairwise htrans htotal x ih

theorem keyLe_trans : ∀ a b c : MFile, keyLe a b = true → keyLe b c = true →
    keyLe a c = true := by
  intro a b c
  simp only [keyLe, Bool.or_eq_true, Bool.and_eq_true, decide_eq_true_eq, beq_iff_eq]
  omega

theorem keyLe_total : ∀ a b : MFile, keyLe a b = true ∨ keyLe b a = true := by
  intro a b
  simp only [keyLe, Bool.or_eq_true, Bool.and_eq_true, decide_eq_true_eq, beq_iff_eq]
  omega

theorem descLe_trans : ∀ a b c : LRow, descLe a b = true → descLe b c = true →
    descLe a c = true := by
  intro a b c
  simp only [descLe, Bool.or_eq_true, Bool.and_eq_true, decide_eq_true_eq, beq_iff_eq]
  omega

theorem descLe_total : ∀ a b : LRow, descLe a b = true ∨ descLe b a = true := by
  intro a b
  simp only [descLe, Bool.or_eq_true, Bool.and_eq_true, decide_eq_true_eq, beq_iff_eq]
  omega



theorem groupRuns_flatten : ∀ fs : List MFile, (groupRuns fs).flatten = fs := by
  intro fs
  induction fs with
  | nil => rfl
  | cons x xs ih =>
    unfold groupRuns
    rcases hg : groupRuns xs with _ | ⟨g, rest⟩
    · have hxs : xs = [] := by rw [← ih, hg]; rfl
      subst hxs
      rfl
    · cases g with
      | nil =>
        simp only [List.flatten_cons, List.nil_append, List.singleton_append]
        rw [← ih, hg]
        rfl
      | cons y ys =>
        by_cases hf : x.fid = y.fid
        · change (if x.fid = y.fid then (x :: y :: ys) :: rest
              else [x] :: (y :: ys) :: rest).flatten = x :: xs
          rw [if_pos hf]
          simp only [List.flatten_cons, List.cons_append]
          rw [← ih, hg]
          rfl
        · change (if x.fid = y.fid then (x :: y :: ys) :: rest
              else [x] :: (y :: ys) :: rest).flatten = x :: xs
          rw [if_neg hf]
          simp only [List.flatten_cons, List.singleton_append, List.cons_append]
          rw [← ih, hg]
          rfl

theorem pairOfGroup_ok {g : List MFile} {pr : MFile × MFile}
    (h : pairOfGroup g = .ok pr) :
    pr.1 ∈ g ∧ pr.2 ∈ g ∧ pr.1.kind = MKind.up ∧ pr.2.kind = MKind.down := by
  unfold pairOfGroup at h
  rcases hu : g.filter (fun f => f.kind == MKind.up) with _ | ⟨u, us⟩ <;>
    rcases hd : g.filter (fun f => f.kind == MKind.down) with _ | ⟨d, ds⟩ <;>
      rw [hu, hd] at h
  · cases h
  · cases ds <;> cases h
  · cases us <;> cases h
  · cases us with
    | nil =>
      cases ds with
      | nil =>
        injection h with h'
        subst h'
        have hmu : u ∈ g.filter (fun f => f.kind == MKind.up) := by
          rw [hu]; exact List.mem_cons_self u []
        have hmd : d ∈ g.filter (fun f => f.kind == MKind.down) := by
          rw [hd]; exact List.mem_cons_self d []
        rcases List.mem_filter.mp hmu with ⟨hug, huk⟩
        rcases List.mem_filter.mp hmd with ⟨hdg, hdk⟩
        exact ⟨hug, hdg, by simpa using huk, by simpa using hdk⟩
      | cons d2 ds2 => cases h
    | cons u2 us2 => cases h

theorem mapME_ok_forall2 {f : α → Except ε β} :
    ∀ {l : List α} {res : List β}, mapME f l = .ok res →
      List.Forall₂ (fun a b => f a = .ok b) l res := by
  intro l
  induction l with
  | nil =>
    intro res h
    injection h with h'
    subst h'
    exact List.Forall₂.nil
  | cons x xs ih =>
    intro res h
    rw [mapME_cons] at h
    rcases hfx : f x with e | y <;> rw [hfx] at h
    · cases h
    · rcases hrest : mapME f xs with e | ys <;> rw [hrest] at h
      · cases h
      · injection h with h'
        subst h'
        exact List.Forall₂.cons hfx (ih hrest)

theorem mapME_ok_mem {f : α → Except ε β} :
    ∀ {l : List α} {res : List β}, mapME f l = .ok res →
      ∀ b ∈ res, ∃ a ∈ l, f a = .ok b := by
  intro l
  induction l with
  | nil =>
    intro res h b hb
    injection h with h'
    subst h'
    cases hb
  | cons x xs ih =>
    intro res h b hb
    rw [mapME_cons] at h
    rcases hfx : f x with e | y <;> rw [hfx] at h
    · cases h
    · rcases hrest : mapME f xs with e | ys <;> rw [hrest] at h
      · cases h
      · injection h with h'
        subst h'
        rcases List.mem_cons.mp hb with rfl | hb'
        · exact ⟨x, List.mem_cons_self x xs, hfx⟩
        · rcases ih hrest b hb' with ⟨a, ha, hfa⟩
          exact ⟨a, List.mem_cons_of_mem x ha, hfa⟩

theorem sel_sublist_flatten {gs : List (List MFile)} {ps : List (MFile × MFile)}
    (h : List.Forall₂ (fun g pr => (pr : MFile × MFile).1 ∈ g) gs ps) :
    (ps.map Prod.fst).Sublist gs.flatten := by
  induction h with
  | nil => simp
  | @cons g pr gs' ps' hx _ ih =>
    simp only [List.map_cons, List.flatten_cons]
    exact List.Sublist.append (List.singleton_sublist.mpr hx) ih

/-- The latest-migration query returns None exactly when no up row
lacks a matching down row, and otherwise a maximal such row under the
(applied_at, file_ts) descending order. -/
theorem latestMigration_facts (ledger : List LRow) :
    (latestMigration ledger = none →
      ∀ r ∈ ledger, ¬(r.kindL = MKind.up ∧ noDown ledger r = true)) ∧
    (∀ l, latestMigration ledger = some l →
      l ∈ ledger ∧ l.kindL = MKind.up ∧ noDown ledger l = true ∧
      ∀ r ∈ ledger, r.kindL = MKind.up → noDown ledger r = true →
        r.appliedAt < l.appliedAt ∨
        (r.appliedAt = l.appliedAt ∧ r.fileTs ≤ l.fileTs)) := by
  constructor
  · intro hnone r hr hP
    unfold latestMigration at hnone
    rcases hs : isortM descLe
        (ledger.filter (fun m => m.kindL == MKind.up && noDown ledger m)) with _ | ⟨z, zs⟩
    · have : r ∈ isortM descLe
          (ledger.filter (fun m => m.kindL == MKind.up && noDown ledger m)) := by
        rw [isortM_mem]
        exact List.mem_filter.mpr ⟨hr, by simp [hP.1, hP.2]⟩
      rw [hs] at this
      cases this
    · rw [hs] at hnone
      cases hnone
  · intro l hl
    unfold latestMigration at hl
    rcases hs : isortM descLe
        (ledger.filter (fun m => m.kindL == MKind.up && noDown ledger m)) with _ | ⟨z, zs⟩
    · rw [hs] at hl
      cases hl
    · rw [hs] at hl
      have hzl : z = l := by injection hl
      subst z
      have hmem : l ∈ ledger.filter (fun m => m.kindL == MKind.up && noDown ledger m) := by
        rw [← isortM_mem descLe, hs]
        exact List.mem_cons_self _ _
      rcases List.mem_filter.mp hmem with ⟨hlg, hlk⟩
      have hlk' : l.kindL = MKind.up ∧ noDown ledger l = true := by
        simpa using hlk
      refine ⟨hlg, hlk'.1, hlk'.2, ?_⟩
      intro r hr hrk hrd
      have hrmem : r ∈ isortM descLe
          (ledger.filter (fun m => m.kindL == MKind.up && noDown ledger m)) := by
        rw [isortM_mem]
        exact List.mem_filter.mpr ⟨hr, by simp [hrk, hrd]⟩
      rw [hs] at hrmem
      have hpw := isortM_pairwise descLe_trans
        (fun a b => descLe_total a b) (ledger.filter (fun m => m.kindL == MKind.up && noDown ledger m))
      rw [hs] at hpw
      rcases List.mem_cons.mp hrmem with rfl | hrmem'
      · right
        exact ⟨rfl, le_refl _⟩
      · have := (List.pairwise_cons.mp hpw).1 r hrmem'
        simp only [descLe, Bool.or_eq_true, Bool.and_eq_true, decide_eq_true_eq,
          beq_iff_eq] at this
        omega



/-- C3: migrate_up selects exactly the up files of the folder passing
the pending filter against latestApplied, in ascending (ts, fileId)
order, truncated to the first n when a positive count is given;
latestApplied is a most recent ledger up row without a matching down
row under the (applied_at, file_ts) ordering of the query. -/
theorem c3_migrate_up_selection (ledger : List LRow) (disk : List DFile) (nb : Int)
    (ps : List (MFile × MFile)) (sel : List MFile)
    (h1 : iterPairs (getFilesD disk) = .ok ps)
    (h2 : getMigrationFiles ledger disk nb = .ok sel) :
    (∀ f ∈ sel, f.kind = MKind.up ∧ (∃ d ∈ disk, ofDisk d = f) ∧
      pendingCond (latestMigration ledger) f = true) ∧
    List.Pairwise (fun a b => keyLe a b = true) sel ∧
    ((0 < nb → sel =
        ((ps.map Prod.fst).filter (pendingCond (latestMigration ledger))).take nb.toNat) ∧
      (¬ 0 < nb → sel = (ps.map Prod.fst).filter (pendingCond (latestMigration ledger)))) ∧
    (∀ pr ∈ ps, pendingCond (latestMigration ledger) pr.1 = true → ¬ 0 < nb →
      pr.1 ∈ sel) ∧
    ((latestMigration ledger = none →
        ∀ r ∈ ledger, ¬(r.kindL = MKind.up ∧ noDown ledger r = true)) ∧
      (∀ l, latestMigration ledger = some l →
        l ∈ ledger ∧ l.kindL = MKind.up ∧ noDown ledger l = true ∧
        ∀ r ∈ ledger, r.kindL = MKind.up → noDown ledger r = true →
          r.appliedAt < l.appliedAt ∨
          (r.appliedAt = l.appliedAt ∧ r.fileTs ≤ l.fileTs))) := by
  have h1' : mapME pairOfGroup (groupRuns (getFilesD disk)) = .ok ps := h1
  have hsel : (if 0 < nb then
      ((ps.map Prod.fst).filter (pendingCond (latestMigration ledger))).take nb.toNat
      else (ps.map Prod.fst).filter (pendingCond (latestMigration ledger))) = sel := by
    unfold getMigrationFiles at h2
    rw [h1] at h2
    simp only [bind, Except.bind] at h2
    injection h2
  have hf2 := mapME_ok_forall2 h1'
  have hups : (ps.map Prod.fst).Sublist (getFilesD disk) := by
    have := sel_sublist_flatten (List.Forall₂.imp (fun g pr hpg => (pairOfGroup_ok hpg).1) hf2)
    rwa [groupRuns_flatten] at this
  have hsorted : List.Pairwise (fun a b => keyLe a b = true) (getFilesD disk) :=
    isortM_pairwise keyLe_trans keyLe_total _
  have hselsub : sel.Sublist ((ps.map Prod.fst).filter (pendingCond (latestMigration ledger))) := by
    rw [← hsel]
    by_cases hnb : 0 < nb
    · rw [if_pos hnb]
      exact List.take_sublist _ _
    · rw [if_neg hnb]
  refine ⟨?_, ?_, ⟨?_, ?_⟩, ?_, latestMigration_facts ledger⟩
  · intro f hf
    have hmemf : f ∈ (ps.map Prod.fst).filter (pendingCond (latestMigration ledger)) :=
      hselsub.mem hf
    rcases List.mem_filter.mp hmemf with ⟨hmap, hcond⟩
    rcases List.mem_map.mp hmap with ⟨pr, hpr, hprf⟩
    rcases mapME_ok_mem h1' pr hpr with ⟨g, hgmem, hgok⟩
    rcases pairOfGroup_ok hgok with ⟨hin, _, hkind, _⟩
    have hfs : pr.1 ∈ getFilesD disk := by
      rw [← groupRuns_flatten (getFilesD disk)]
      exact List.mem_flatten.mpr ⟨g, hgmem, hin⟩
    have hfd : pr.1 ∈ (disk.map ofDisk) := by
      have := (isortM_mem keyLe (disk.map ofDisk) pr.1).mp hfs
      exact this
    rcases List.mem_map.mp hfd with ⟨d, hd, hdo⟩
    exact ⟨hprf ▸ hkind, ⟨d, hd, hprf ▸ hdo⟩, hcond⟩
  · exact List.Pairwise.sublist ((hselsub.trans (List.filter_sublist _)).trans hups) hsorted
  · intro hnb
    rw [← hsel, if_pos hnb]
  · intro hnb
    rw [← hsel, if_neg hnb]
  · intro pr hpr hcond hnb
    rw [← hsel, if_neg hnb]
    exact List.mem_filter.mpr ⟨List.mem_map.mpr ⟨pr, hpr, rfl⟩, hcond⟩



/-- C3 witness: with one applied migration in the ledger, the second
pair of the two-pair folder is selected. -/
theorem c3_witness :
    (⟨2000000, 2, MKind.up, ⟨2, 2, MKind.up⟩, some (some ⟨1, 1, MKind.up⟩)⟩ : MFile) ∈
      ([⟨2000000, 2, MKind.up, ⟨2, 2, MKind.up⟩, some (some ⟨1, 1, MKind.up⟩)⟩] : List MFile) :=
  (c3_migrate_up_selection [⟨10, 1000000, 1, MKind.up, ⟨1, 1, MKind.up⟩⟩] chainFolder2 (-1)
    chainPairs2
    [⟨2000000, 2, MKind.up, ⟨2, 2, MKind.up⟩, some (some ⟨1, 1, MKind.up⟩)⟩]
    (by decide) (by decide)).2.2.2.1
    (⟨2000000, 2, MKind.up, ⟨2, 2, MKind.up⟩, some (some ⟨1, 1, MKind.up⟩)⟩,
     ⟨2000000, 2, MKind.down, ⟨2, 2, MKind.down⟩, some (some ⟨1, 1, MKind.down⟩)⟩)
    (by decide) (by decide) (by decide)


/-- A listed id matching no pair of the folder survives the reorder
loop in the remaining-id set. -/
theorem reorderGo_missing : ∀ (pairs : List (MFile × MFile)) (ids : List Nat)
    (cur i : Nat), i ∈ ids → (∀ pr ∈ pairs, pr.1.fid ≠ i) →
    i ∈ (reorderGo pairs ids cur).2.1 := by
  intro pairs
  induction pairs with
  | nil =>
    intro ids cur i hi _
    exact hi
  | cons pr rest ih =>
    intro ids cur i hi hne
    unfold reorderGo
    by_cases hemp : ids.isEmpty
    · rw [if_pos hemp]
      exact hi
    · rw [if_neg hemp]
      by_cases hmem : pr.1.fid ∈ ids
      · rw [if_pos hmem]
        have hnei : i ≠ pr.1.fid := fun hc => (hne pr (List.mem_cons_self pr rest)) hc.symm
        exact ih (ids.erase pr.1.fid) (cur + 1) i ((List.mem_erase_of_ne hnei).mpr hi)
          (fun q hq => hne q (List.mem_cons_of_mem pr hq))
      · rw [if_neg hmem]
        exact ih ids cur i hi (fun q hq => hne q (List.mem_cons_of_mem pr hq))

/-- The reorder loop leaves unlisted pairs untouched and restamps
listed pairs, in folder order, with timestamps at or after now. -/
theorem reorderGo_forall2 : ∀ (pairs : List (MFile × MFile)) (ids ids0 : List Nat)
    (cur : Nat), (∀ j ∈ ids, j ∈ ids0) →
    List.Forall₂ (fun pr pr' : MFile × MFile =>
        pr' = pr ∨ ((pr : MFile × MFile).1.fid ∈ ids0 ∧ ∃ t, cur ≤ t ∧
          pr' = (replaceTs pr.1 t, replaceTs pr.2 t)))
      pairs (reorderGo pairs ids cur).1 := by
  intro pairs
  induction pairs with
  | nil =>
    intro ids ids0 cur _
    exact List.Forall₂.nil
  | cons pr rest ih =>
    intro ids ids0 cur hsub
    unfold reorderGo
    by_cases hemp : ids.isEmpty
    · rw [if_pos hemp]
      exact (List.forall₂_same).mpr (fun pr _ => Or.inl rfl)
    · rw [if_neg hemp]
      by_cases hmem : pr.1.fid ∈ ids
      · rw [if_pos hmem]
        refine List.Forall₂.cons (Or.inr ⟨hsub _ hmem, cur, le_refl cur, rfl⟩) ?_
        have hrec := ih (ids.erase pr.1.fid) ids0 (cur + 1)
          (fun j hj => hsub j (List.mem_of_mem_erase hj))
        refine List.Forall₂.imp ?_ hrec
        intro a b hab
        rcases hab with rfl | ⟨hfid, t, ht, rfl⟩
        · exact Or.inl rfl
        · exact Or.inr ⟨hfid, t, by omega, rfl⟩
      · rw [if_neg hmem]
        exact List.Forall₂.cons (Or.inl rfl) (ih ids ids0 cur hsub)

/-- C5 counterexample: reorder_files_by_last treats the given ids as a
set; the inputs [2, 0] and [0, 2] on the five-pair folder both yield
the up order 1, 3, 4, 0, 2, where the order claimed for the list
[2, 0] (the listed migrations last, in the given order) would be
1, 3, 4, 2, 0. -/
theorem c5_counterexample :
    Except.map (fun r => upIdsD r.1) (reorderFilesByLast NOW5 folder5 [2, 0]) =
      .ok [1, 3, 4, 0, 2] ∧
    Except.map (fun r => upIdsD r.1) (reorderFilesByLast NOW5 folder5 [0, 2]) =
      .ok [1, 3, 4, 0, 2] ∧
    ¬ Except.map (fun r => upIdsD r.1) (reorderFilesByLast NOW5 folder5 [2, 0]) =
      .ok [1, 3, 4, 2, 0] := by
  refine ⟨by decide, by decide, by decide⟩

/-- C5 (amended): reorder_files_by_last fails when some listed id is
missing from the folder; it restamps exactly the listed pairs, in the
order they appear in the folder (ascending (ts, fileId)) and not in
the order given in the list, with microsecond-spaced timestamps from
now on, then repairs headers; truncation of file names to whole
seconds further orders same-second listed migrations by fileId.  In
the S2 scenario the resulting up order is 0, 1, 3, 4, 2 and the folder
passes verification. -/
theorem c5_amended (now : Nat) (disk : List DFile) (lastIds : List Nat)
    (ps : List (MFile × MFile))
    (h1 : iterPairs (getFilesD disk) = .ok ps) :
    (lastIds ≠ [] → (∃ i ∈ lastIds, ∀ pr ∈ ps, pr.1.fid ≠ i) →
      reorderFilesByLast now disk lastIds = .error .missingIds) ∧
    List.Forall₂ (fun pr pr' : MFile × MFile =>
        pr' = pr ∨ ((pr : MFile × MFile).1.fid ∈ lastIds ∧ ∃ t, now ≤ t ∧
          pr' = (replaceTs pr.1 t, replaceTs pr.2 t)))
      ps (reorderGo ps lastIds.dedup now).1 ∧
    Except.map (fun r => upIdsD r.1) (reorderFilesByLast NOW5 folder5 [2]) =
      .ok [0, 1, 3, 4, 2] ∧
    Except.map (fun r => (verifyDisk true r.1).isOk) (reorderFilesByLast NOW5 folder5 [2]) =
      .ok true := by
  refine ⟨?_, ?_, by decide, by decide⟩
  · intro hne ⟨i, hi, hmiss⟩
    unfold reorderFilesByLast
    rw [if_neg (by simpa using hne), h1]
    simp only [bind, Except.bind]
    have hrem := reorderGo_missing ps lastIds.dedup now i
      (List.mem_dedup.mpr hi) hmiss
    rcases hgo : reorderGo ps lastIds.dedup now with ⟨ps', rem, mods⟩
    rw [hgo] at hrem
    rw [if_neg (by
      intro hc
      rw [List.isEmpty_iff] at hc
      rw [hc] at hrem
      cases hrem)]
  · exact reorderGo_forall2 ps lastIds.dedup lastIds now
      (fun j hj => List.mem_dedup.mp hj)

/-- C5 amended witness: a missing id makes the reorder fail on a
concrete folder. -/
theorem c5_amended_witness :
    reorderFilesByLast NOW5 chainFolder2 [9] = .error .missingIds :=
  (c5_amended NOW5 chainFolder2 [9] chainPairs2 (by decide)).1 (by decide)
    ⟨9, by decide, by decide⟩


/-! ### C8: idempotence of repair_headers -/

theorem isortM_of_sorted {le : α → α → Bool} :
    ∀ {l : List α}, List.Pairwise (fun a b => le a b = true) l → isortM le l = l := by
  intro l
  induction l with
  | nil => intro _; rfl
  | cons x xs ih =>
    intro h
    rcases List.pairwise_cons.mp h with ⟨hx, hxs⟩
    show insM le x (isortM le xs) = x :: xs
    rw [ih hxs]
    cases xs with
    | nil => rfl
    | cons y ys =>
      show insM le x (y :: ys) = x :: y :: ys
      unfold insM
      rw [if_pos (hx y (List.mem_cons_self y ys))]

theorem checkPair_congr (a b q : MFile × MFile)
    (e1 : b.1.ts = a.1.ts) (e2 : b.2.ts = a.2.ts)
    (e3 : b.1.pname = a.1.pname) (e4 : b.2.pname = a.2.pname) :
    checkPair b q = checkPair a q := by
  unfold checkPair hdrBad
  rw [e1, e2, e3, e4]

theorem checkPair_some_fid {p q : MFile × MFile} {e : VRec}
    (h : checkPair p q = some e) : e.vfid = q.1.fid ∨ e.vfid = q.2.fid := by
  unfold checkPair at h
  split_ifs at h <;>
    first
      | (injection h with h2; rw [← h2]; exact Or.inl rfl)
      | (injection h with h2; rw [← h2]; exact Or.inr rfl)
      | cases h

theorem checkPair_header_ts {p q : MFile × MFile} {e : VRec}
    (h : checkPair p q = some e) (hk : e.vk = VKind.header) :
    p.1.ts ≤ q.1.ts ∧ p.2.ts ≤ q.2.ts := by
  unfold checkPair at h
  split_ifs at h with h1 h2 h3 h4 <;>
    first
      | (constructor <;> omega)
      | (injection h with h5; rw [← h5] at hk; simp at hk)
      | cases h

theorem pairOfGroup_pair {u d : MFile} (hu : u.kind = MKind.up) (hd : d.kind = MKind.down) :
    pairOfGroup [u, d] = .ok (u, d) := by
  have h1 : List.filter (fun f => f.kind == MKind.up) [u, d] = [u] := by
    simp [List.filter_cons, hu, hd]
  have h2 : List.filter (fun f => f.kind == MKind.down) [u, d] = [d] := by
    simp [List.filter_cons, hu, hd]
  simp only [pairOfGroup, h1, h2]

theorem groupRuns_cons_nil (x : MFile) {xs : List MFile} (hg : groupRuns xs = []) :
    groupRuns (x :: xs) = [[x]] := by
  unfold groupRuns
  rw [hg]

theorem groupRuns_cons_merge (x : MFile) {xs : List MFile} {y : MFile} {ys : List MFile}
    {rest : List (List MFile)} (hg : groupRuns xs = (y :: ys) :: rest) (hf : x.fid = y.fid) :
    groupRuns (x :: xs) = (x :: y :: ys) :: rest := by
  unfold groupRuns
  rw [hg]
  exact if_pos hf

theorem groupRuns_cons_new (x : MFile) {xs : List MFile} {y : MFile} {ys : List MFile}
    {rest : List (List MFile)} (hg : groupRuns xs = (y :: ys) :: rest) (hf : ¬ x.fid = y.fid) :
    groupRuns (x :: xs) = [x] :: (y :: ys) :: rest := by
  unfold groupRuns
  rw [hg]
  exact if_neg hf

theorem groupRuns_props : ∀ fs : List MFile,
    (∀ g ∈ groupRuns fs, g ≠ []) ∧
    (∀ g ∈ groupRuns fs, ∀ x ∈ g, ∀ y ∈ g, x.fid = y.fid) ∧
    List.Chain' (fun g h => ∀ x ∈ g, ∀ y ∈ h, x.fid ≠ y.fid) (groupRuns fs) := by
  intro fs
  induction fs with
  | nil =>
    exact ⟨fun g hg => absurd hg (List.not_mem_nil g),
      fun g hg => absurd hg (List.not_mem_nil g), List.chain'_nil⟩
  | cons x xs ih =>
    obtain ⟨ihne, ihuni, ihch⟩ := ih
    rcases hg : groupRuns xs with _ | ⟨g, rest⟩
    · rw [groupRuns_cons_nil x hg]
      refine ⟨?_, ?_, List.chain'_singleton _⟩
      · intro g hg2
        rcases List.mem_cons.mp hg2 with rfl | h0
        · intro hc
          cases hc
        · cases h0
      · intro g hg2 a ha b hb
        rcases List.mem_cons.mp hg2 with rfl | h0
        · have ha2 : a = x := by simpa using ha
          have hb2 : b = x := by simpa using hb
          rw [ha2, hb2]
        · cases h0
    · rw [hg] at ihne ihuni ihch
      cases g with
      | nil => exact absurd rfl (ihne [] (List.mem_cons_self _ _))
      | cons y ys =>
        by_cases hf : x.fid = y.fid
        · rw [groupRuns_cons_merge x hg hf]
          have hhead : ∀ a ∈ x :: y :: ys, a.fid = y.fid := by
            intro a ha
            rcases List.mem_cons.mp ha with rfl | ha2
            · exact hf
            · exact ihuni (y :: ys) (List.mem_cons_self _ _) a ha2 y
                (List.mem_cons_self _ _)
          refine ⟨?_, ?_, ?_⟩
          · intro g hg2
            rcases List.mem_cons.mp hg2 with rfl | h0
            · intro hc
              cases hc
            · exact ihne g (List.mem_cons_of_mem _ h0)
          · intro g hg2 a ha b hb
            rcases List.mem_cons.mp hg2 with rfl | h0
            · rw [hhead a ha, hhead b hb]
            · exact ihuni g (List.mem_cons_of_mem _ h0) a ha b hb
          · cases rest with
            | nil => exact List.chain'_singleton _
            | cons r0 rest2 =>
              rcases List.chain'_cons.mp ihch with ⟨hrel, htail⟩
              refine List.chain'_cons.mpr ⟨?_, htail⟩
              intro a ha b hb
              rw [hhead a ha]
              exact hrel y (List.mem_cons_self _ _) b hb
        · rw [groupRuns_cons_new x hg hf]
          refine ⟨?_, ?_, ?_⟩
          · intro g hg2
            rcases List.mem_cons.mp hg2 with rfl | h0
            · intro hc
              cases hc
            · exact ihne g h0
          · intro g hg2 a ha b hb
            rcases List.mem_cons.mp hg2 with rfl | h0
            · have ha2 : a = x := by simpa using ha
              have hb2 : b = x := by simpa using hb
              rw [ha2, hb2]
            · exact ihuni g h0 a ha b hb
          · refine List.chain'_cons.mpr ⟨?_, ihch⟩
            intro a ha b hb
            have ha2 : a = x := by simpa using ha
            rw [ha2]
            have hb2 : b.fid = y.fid :=
              ihuni (y :: ys) (List.mem_cons_self _ _) b hb y (List.mem_cons_self _ _)
            rw [hb2]
            exact hf

theorem find?_eq_of_nodup_keys {l : List (Nat × VKind)} {k : Nat} {v : VKind} :
    (l.map Prod.fst).Nodup → (k, v) ∈ l → l.find? (fun x => x.1 == k) = some (k, v) := by
  intro hnd hm
  induction l with
  | nil => cases hm
  | cons a l ih =>
    rcases List.mem_cons.mp hm with rfl | hm2
    · exact List.find?_cons_of_pos _ (by simp)
    · have hne : a.1 ≠ k := by
        intro he
        rcases List.nodup_cons.mp hnd with ⟨hna, _⟩
        exact hna (he ▸ List.mem_map.mpr ⟨(k, v), hm2, rfl⟩)
      rw [List.find?_cons_of_neg _ (by simpa using hne)]
      exact ih (List.nodup_cons.mp hnd).2 hm2

theorem lookupErr_eq_of_mem {errs : List ((MFile × MFile) × VRec)}
    {pe : (MFile × MFile) × VRec} (hm : pe ∈ errs)
    (hnd : (errs.map (fun x => x.2.vfid)).Nodup) :
    lookupErr (errMapOf errs) pe.2.vfid = some pe.2.vk := by
  unfold lookupErr errMapOf
  have hmem2 : (pe.2.vfid, pe.2.vk) ∈ (errs.map (fun e => (e.2.vfid, e.2.vk))).reverse :=
    List.mem_reverse.mpr (List.mem_map.mpr ⟨pe, hm, rfl⟩)
  have hnd2 : (((errs.map (fun e => (e.2.vfid, e.2.vk))).reverse).map Prod.fst).Nodup := by
    rw [List.map_reverse, List.nodup_reverse, List.map_map]
    exact hnd
  rw [find?_eq_of_nodup_keys hnd2 hmem2]
  rfl

theorem lookupErr_ne_none_of_mem {errs : List ((MFile × MFile) × VRec)}
    {pe : (MFile × MFile) × VRec} (hm : pe ∈ errs) :
    lookupErr (errMapOf errs) pe.2.vfid ≠ none := by
  unfold lookupErr errMapOf
  intro hc
  have hs : ((errs.map (fun e => (e.2.vfid, e.2.vk))).reverse.find?
      (fun x => x.1 == pe.2.vfid)).isSome = true :=
    List.find?_isSome.mpr ⟨(pe.2.vfid, pe.2.vk),
      List.mem_reverse.mpr (List.mem_map.mpr ⟨pe, hm, rfl⟩), by simp⟩
  rcases hf : (errs.map (fun e => (e.2.vfid, e.2.vk))).reverse.find?
      (fun x => x.1 == pe.2.vfid) with _ | x
  · rw [hf] at hs
    cases hs
  · rw [hf] at hc
    cases hc

theorem lookupErr_mem {m : List (Nat × VKind)} {k : Nat} {vk : VKind}
    (h : lookupErr m k = some vk) : (k, vk) ∈ m := by
  unfold lookupErr at h
  rcases hf : m.find? (fun x => x.1 == k) with _ | x
  · rw [hf] at h
    cases h
  · rw [hf] at h
    have hx : x ∈ m := List.mem_of_find?_eq_some hf
    have hpx := List.find?_some hf
    have h2 : x.2 = vk := by injection h
    have h1 : x.1 = k := by simpa using hpx
    rcases x with ⟨k0, v0⟩
    rw [← h1, ← h2]
    exact hx

theorem errMapOf_mem {errs : List ((MFile × MFile) × VRec)} {k : Nat} {vk : VKind}
    (h : (k, vk) ∈ errMapOf errs) :
    ∃ pe ∈ errs, pe.2.vfid = k ∧ pe.2.vk = vk := by
  unfold errMapOf at h
  rcases List.mem_map.mp (List.mem_reverse.mp h) with ⟨pe, hpe, he⟩
  injection he with ha hb
  exact ⟨pe, hpe, ha, hb⟩

theorem chain_imp_mem {R S : α → α → Prop} :
    ∀ (x : α) (l : List α), (∀ a b, b ∈ l → R a b → S a b) →
      List.Chain' R (x :: l) → List.Chain' S (x :: l) := by
  intro x l
  induction l generalizing x with
  | nil => intro _ _; exact List.chain'_singleton x
  | cons y ys ih =>
    intro himp hch
    rcases List.chain'_cons.mp hch with ⟨hxy, htail⟩
    exact List.chain'_cons.mpr ⟨himp x y (List.mem_cons_self y ys) hxy,
      ih y (fun a b hb => himp a b (List.mem_cons_of_mem y hb)) htail⟩

theorem forall2_map_eq {R : α → β → Prop} {f : α → γ} {g : β → γ} :
    ∀ {l : List α} {m : List β}, List.Forall₂ R l m → (∀ a b, R a b → g b = f a) →
      m.map g = l.map f := by
  intro l m h hc
  induction h with
  | nil => rfl
  | cons hab htail ih =>
    simp only [List.map_cons]
    rw [hc _ _ hab, ih]

theorem forall2_map_right {R : α → β → Prop} {S : α → γ → Prop} {f : β → γ} :
    ∀ {l : List α} {m : List β}, List.Forall₂ R l m → (∀ a b, R a b → S a (f b)) →
      List.Forall₂ S l (m.map f) := by
  intro l m h hc
  induction h with
  | nil => exact List.Forall₂.nil
  | cons hab htail ih => exact List.Forall₂.cons (hc _ _ hab) ih

theorem flatten_perm_forall2 {l m : List (List α)} (h : List.Forall₂ List.Perm l m) :
    List.Perm l.flatten m.flatten := by
  induction h with
  | nil => exact List.Perm.refl _
  | cons hab htail ih =>
    simp only [List.flatten_cons]
    exact List.Perm.append hab ih

theorem pairOfGroup_filters {g : List MFile} {pr : MFile × MFile}
    (h : pairOfGroup g = .ok pr) :
    g.filter (fun f => f.kind == MKind.up) = [pr.1] ∧
    g.filter (fun f => f.kind == MKind.down) = [pr.2] := by
  unfold pairOfGroup at h
  rcases hu : g.filter (fun f => f.kind == MKind.up) with _ | ⟨u, us⟩ <;>
    rcases hd : g.filter (fun f => f.kind == MKind.down) with _ | ⟨d, ds⟩ <;>
      rw [hu, hd] at h
  · cases h
  · cases ds <;> cases h
  · cases us <;> cases h
  · cases us with
    | nil =>
      cases ds with
      | nil =>
        injection h with h2
        rw [← h2]
        exact ⟨hu, hd⟩
      | cons d2 ds2 => cases h
    | cons u2 us2 => cases h

theorem sameShape_refl (pr : MFile × MFile) : sameShape pr pr :=
  ⟨rfl, rfl, rfl, rfl, rfl, rfl, rfl, rfl⟩

theorem fixFile_shape {pair prevPair : MFile × MFile} {vk : VKind} {pr2 : MFile × MFile}
    (h : fixFile pair prevPair vk = .ok pr2) :
    sameShape pair pr2 ∧ vk = VKind.header ∧
    pr2.1.hdr = some (some prevPair.1.pname) ∧ pr2.2.hdr = some (some prevPair.2.pname) := by
  cases vk with
  | order => cases h
  | header =>
    unfold fixFile at h
    rcases h1 : pair.1.hdr with _ | v1 <;> rcases h2 : pair.2.hdr with _ | v2 <;>
      rw [h1, h2] at h
    · cases h
    · cases h
    · cases h
    · injection h with h3
      rw [← h3]
      exact ⟨⟨rfl, rfl, rfl, rfl, rfl, rfl, rfl, rfl⟩, rfl, rfl, rfl⟩

theorem repairGo_shape {errMap : List (Nat × VKind)} :
    ∀ {l : List (MFile × MFile)} {prev : Option (MFile × MFile)}
      {res : List (MFile × MFile)} {mods : List FName},
      repairGo errMap l prev = .ok (res, mods) → List.Forall₂ sameShape l res := by
  intro l
  induction l with
  | nil =>
    intro prev res mods h
    injection h with h2
    injection h2 with ha hb
    rw [← ha]
    exact List.Forall₂.nil
  | cons pr rest ih =>
    intro prev res mods h
    cases prev with
    | none =>
      simp only [repairGo, bind, Except.bind] at h
      rcases hr : repairGo errMap rest (some pr) with e | ⟨ps, m2⟩ <;> rw [hr] at h
      · cases h
      · injection h with h2
        injection h2 with ha hb
        rw [← ha]
        exact List.Forall₂.cons (sameShape_refl pr) (ih hr)
    | some prev =>
      simp only [repairGo] at h
      rcases hl : lookupErr errMap pr.1.fid with _ | vk <;> rw [hl] at h
      · simp only [bind, Except.bind] at h
        rcases hr : repairGo errMap rest (some pr) with e | ⟨ps, m2⟩ <;> rw [hr] at h
        · cases h
        · injection h with h2
          injection h2 with ha hb
          rw [← ha]
          exact List.Forall₂.cons (sameShape_refl pr) (ih hr)
      · rcases hfx : fixFile pr prev vk with e | pr2 <;>
          simp only [hfx, bind, Except.bind] at h
        · cases h
        · rcases hr : repairGo errMap rest (some pr2) with e | ⟨ps, m2⟩ <;>
            simp only [hr] at h
          · cases h
          · injection h with h2
            injection h2 with ha hb
            rw [← ha]
            exact List.Forall₂.cons (fixFile_shape hfx).1 (ih hr)

theorem getFilesD_wf (disk : List DFile) :
    ∀ f ∈ getFilesD disk, f.ts = f.pname.sec * 1000000 ∧ f.fid = f.pname.fid ∧
      f.kind = f.pname.kind := by
  intro f hf
  have hf2 : f ∈ disk.map ofDisk := (isortM_mem keyLe (disk.map ofDisk) f).mp hf
  rcases List.mem_map.mp hf2 with ⟨d, _, rfl⟩
  exact ⟨rfl, rfl, rfl⟩

theorem iterPairs_mem {fs : List MFile} {ps : List (MFile × MFile)}
    (h : iterPairs fs = .ok ps) :
    ∀ pr ∈ ps, pr.1 ∈ fs ∧ pr.2 ∈ fs ∧ pr.1.kind = MKind.up ∧ pr.2.kind = MKind.down ∧
      pr.1.fid = pr.2.fid := by
  intro pr hpr
  rcases mapME_ok_mem h pr hpr with ⟨g, hg, hok⟩
  obtain ⟨h1, h2, h3, h4⟩ := pairOfGroup_ok hok
  obtain ⟨_, huni, _⟩ := groupRuns_props fs
  refine ⟨?_, ?_, h3, h4, huni g hg pr.1 h1 pr.2 h2⟩
  · rw [← groupRuns_flatten fs]
    exact List.mem_flatten.mpr ⟨g, hg, h1⟩
  · rw [← groupRuns_flatten fs]
    exact List.mem_flatten.mpr ⟨g, hg, h2⟩

theorem flatPairs_cons (pr : MFile × MFile) (rest : List (MFile × MFile)) :
    flatPairs (pr :: rest) = pr.1 :: pr.2 :: flatPairs rest := rfl

theorem flatPairs_mem {ps : List (MFile × MFile)} {f : MFile} :
    f ∈ flatPairs ps ↔ ∃ pr ∈ ps, f = pr.1 ∨ f = pr.2 := by
  unfold flatPairs
  rw [List.mem_flatten]
  constructor
  · rintro ⟨l, hl, hf⟩
    rcases List.mem_map.mp hl with ⟨pr, hpr, rfl⟩
    refine ⟨pr, hpr, ?_⟩
    simpa using hf
  · rintro ⟨pr, hpr, hor⟩
    exact ⟨[pr.1, pr.2], List.mem_map.mpr ⟨pr, hpr, rfl⟩,
      by rcases hor with rfl | rfl <;> simp⟩

theorem map_id_of_mem {l : List α} {f : α → α} (h : ∀ a ∈ l, f a = a) : l.map f = l := by
  induction l with
  | nil => rfl
  | cons x xs ih =>
    simp only [List.map_cons]
    rw [h x (List.mem_cons_self _ _), ih (fun a ha => h a (List.mem_cons_of_mem _ ha))]

theorem toDisk_eq_map (ps : List (MFile × MFile)) :
    toDisk ps = (flatPairs ps).map (fun f => DFile.mk f.pname f.hdr) := by
  induction ps with
  | nil => rfl
  | cons pr rest ih =>
    show DFile.mk pr.1.pname pr.1.hdr :: DFile.mk pr.2.pname pr.2.hdr :: toDisk rest =
      DFile.mk pr.1.pname pr.1.hdr :: DFile.mk pr.2.pname pr.2.hdr ::
        (flatPairs rest).map (fun f => DFile.mk f.pname f.hdr)
    rw [ih]

theorem map_ofDisk_toDisk {ps : List (MFile × MFile)}
    (hwf : ∀ f ∈ flatPairs ps, f.ts = f.pname.sec * 1000000 ∧ f.fid = f.pname.fid ∧
      f.kind = f.pname.kind) :
    (toDisk ps).map ofDisk = flatPairs ps := by
  rw [toDisk_eq_map, List.map_map]
  refine map_id_of_mem ?_
  intro f hf
  obtain ⟨h1, h2, h3⟩ := hwf f hf
  rcases f with ⟨ts, fid, kind, pname, hdr⟩
  show MFile.mk (pname.sec * 1000000) pname.fid pname.kind pname hdr =
    MFile.mk ts fid kind pname hdr
  dsimp at h1 h2 h3
  rw [h1, h2, h3]

theorem forall2_mem_right {R : α → β → Prop} :
    ∀ {l : List α} {m : List β}, List.Forall₂ R l m → ∀ y ∈ m, ∃ b ∈ l, R b y := by
  intro l m h
  induction h with
  | nil =>
    intro y hy
    cases hy
  | cons hab htail ih =>
    intro y hy
    rcases List.mem_cons.mp hy with rfl | hy2
    · exact ⟨_, List.mem_cons_self _ _, hab⟩
    · rcases ih y hy2 with ⟨b, hb, hby⟩
      exact ⟨b, List.mem_cons_of_mem _ hb, hby⟩

theorem pairwise_transfer {R : α → β → Prop} {S : α → α → Prop} {T : β → β → Prop} :
    ∀ {l : List α} {m : List β}, List.Forall₂ R l m → List.Pairwise S l →
      (∀ a b x y, R a x → R b y → S a b → T x y) → List.Pairwise T m := by
  intro l m h
  induction h with
  | nil =>
    intro _ _
    exact List.Pairwise.nil
  | @cons a x l2 m2 hax htail ih =>
    intro hpw himp
    rcases List.pairwise_cons.mp hpw with ⟨ha, hl2⟩
    refine List.pairwise_cons.mpr ⟨?_, ih hl2 himp⟩
    intro y hy
    obtain ⟨b, hb, hby⟩ := forall2_mem_right htail y hy
    exact himp a b x y hax hby (ha b hb)

theorem chain_transfer {R : α → β → Prop} {S : α → α → Prop} {T : β → β → Prop} :
    ∀ {l : List α} {m : List β}, List.Forall₂ R l m → List.Chain' S l →
      (∀ a b x y, R a x → R b y → S a b → T x y) → List.Chain' T m := by
  intro l m h
  induction h with
  | nil =>
    intro _ _
    exact List.chain'_nil
  | @cons a x l2 m2 hax htail ih =>
    intro hch himp
    cases htail with
    | nil => exact List.chain'_singleton x
    | @cons b y l3 m3 hby htail2 =>
      rcases List.chain'_cons.mp hch with ⟨hab, htl⟩
      exact List.chain'_cons.mpr ⟨himp a b x y hax hby hab, ih htl himp⟩

theorem keyLe_congr {a b a2 b2 : MFile} (e1 : a2.ts = a.ts) (e2 : a2.fid = a.fid)
    (e3 : b2.ts = b.ts) (e4 : b2.fid = b.fid) : keyLe a2 b2 = keyLe a b := by
  unfold keyLe
  rw [e1, e2, e3, e4]

theorem keyLe_of_eq {x y : MFile} (hts : x.ts = y.ts) (hfid : x.fid = y.fid) :
    keyLe x y = true := by
  unfold keyLe
  simp [hts, hfid]

theorem pairs_cross_sorted {fs : List MFile} {ps : List (MFile × MFile)}
    (hps : iterPairs fs = .ok ps)
    (hsort : List.Pairwise (fun a b => keyLe a b = true) fs) :
    List.Pairwise (fun pr qr : MFile × MFile =>
      keyLe pr.1 qr.1 = true ∧ keyLe pr.1 qr.2 = true ∧
      keyLe pr.2 qr.1 = true ∧ keyLe pr.2 qr.2 = true) ps := by
  have hf2 := mapME_ok_forall2 hps
  have hmem : List.Forall₂ (fun (g : List MFile) (pr : MFile × MFile) =>
      pr.1 ∈ g ∧ pr.2 ∈ g) (groupRuns fs) ps :=
    List.Forall₂.imp (fun g pr hok => ⟨(pairOfGroup_ok hok).1, (pairOfGroup_ok hok).2.1⟩) hf2
  have hflat : List.Pairwise (fun a b => keyLe a b = true) (groupRuns fs).flatten := by
    rw [groupRuns_flatten]
    exact hsort
  have hcross := (List.pairwise_flatten.mp hflat).2
  refine pairwise_transfer hmem hcross ?_
  intro g h pr qr hpg hqg hS
  exact ⟨hS pr.1 hpg.1 qr.1 hqg.1, hS pr.1 hpg.1 qr.2 hqg.2,
    hS pr.2 hpg.2 qr.1 hqg.1, hS pr.2 hpg.2 qr.2 hqg.2⟩

theorem iterPairs_chain_ne {fs : List MFile} {ps : List (MFile × MFile)}
    (h : iterPairs fs = .ok ps) :
    List.Chain' (fun pr qr : MFile × MFile => pr.1.fid ≠ qr.1.fid) ps := by
  have hf2 := mapME_ok_forall2 h
  have hmem : List.Forall₂ (fun (g : List MFile) (pr : MFile × MFile) => pr.1 ∈ g)
      (groupRuns fs) ps :=
    List.Forall₂.imp (fun g pr hok => (pairOfGroup_ok hok).1) hf2
  obtain ⟨_, _, hch⟩ := groupRuns_props fs
  refine chain_transfer hmem hch ?_
  intro g h2 pr qr hpg hqg hS
  exact hS pr.1 hpg qr.1 hqg

theorem flatPairs_sorted {ps2 : List (MFile × MFile)}
    (hwithin : ∀ pr ∈ ps2, keyLe pr.1 pr.2 = true)
    (hcross : List.Pairwise (fun pr qr : MFile × MFile =>
      keyLe pr.1 qr.1 = true ∧ keyLe pr.1 qr.2 = true ∧
      keyLe pr.2 qr.1 = true ∧ keyLe pr.2 qr.2 = true) ps2) :
    List.Pairwise (fun a b => keyLe a b = true) (flatPairs ps2) := by
  unfold flatPairs
  rw [List.pairwise_flatten]
  constructor
  · intro l hl
    rcases List.mem_map.mp hl with ⟨pr, hpr, rfl⟩
    refine List.pairwise_cons.mpr ⟨?_, List.pairwise_singleton _ _⟩
    intro y hy
    have hy2 : y = pr.2 := by simpa using hy
    rw [hy2]
    exact hwithin pr hpr
  · rw [List.pairwise_map]
    refine List.Pairwise.imp ?_ hcross
    intro pr qr hk x hx y hy
    rcases (show x = pr.1 ∨ x = pr.2 by simpa using hx) with rfl | rfl <;>
      rcases (show y = qr.1 ∨ y = qr.2 by simpa using hy) with rfl | rfl
    · exact hk.1
    · exact hk.2.1
    · exact hk.2.2.1
    · exact hk.2.2.2

theorem groupRuns_flatPairs :
    ∀ {ps2 : List (MFile × MFile)},
      (∀ pr ∈ ps2, pr.1.fid = pr.2.fid) →
      List.Chain' (fun pr qr : MFile × MFile => pr.1.fid ≠ qr.1.fid) ps2 →
      groupRuns (flatPairs ps2) = ps2.map (fun pr => [pr.1, pr.2]) := by
  intro ps2
  induction ps2 with
  | nil =>
    intro _ _
    rfl
  | cons pr rest ih =>
    intro huni hch
    have hfe : pr.1.fid = pr.2.fid := huni pr (List.mem_cons_self _ _)
    rw [flatPairs_cons]
    cases rest with
    | nil =>
      have g1 : groupRuns [pr.2] = [[pr.2]] := groupRuns_cons_nil pr.2 rfl
      exact groupRuns_cons_merge pr.1 g1 hfe
    | cons qr rest2 =>
      have ih2 := ih (fun a ha => huni a (List.mem_cons_of_mem _ ha))
        (List.chain'_cons.mp hch).2
      rw [flatPairs_cons] at ih2
      have hne : pr.1.fid ≠ qr.1.fid := (List.chain'_cons.mp hch).1
      have hne2 : ¬ pr.2.fid = qr.1.fid := by
        rw [← hfe]
        exact hne
      have g1 : groupRuns (pr.2 :: qr.1 :: qr.2 :: flatPairs rest2) =
          [pr.2] :: [qr.1, qr.2] :: rest2.map (fun pr => [pr.1, pr.2]) := by
        have hstep : groupRuns (qr.1 :: qr.2 :: flatPairs rest2) =
            [qr.1, qr.2] :: rest2.map (fun pr => [pr.1, pr.2]) := ih2
        exact groupRuns_cons_new pr.2 hstep hne2
      have g2 := groupRuns_cons_merge pr.1 g1 hfe
      exact g2

theorem mapME_blocks {ps2 : List (MFile × MFile)}
    (hk : ∀ pr ∈ ps2, pr.1.kind = MKind.up ∧ pr.2.kind = MKind.down) :
    mapME pairOfGroup (ps2.map (fun pr => [pr.1, pr.2])) = .ok ps2 := by
  induction ps2 with
  | nil => rfl
  | cons pr rest ih =>
    have h1 := (hk pr (List.mem_cons_self _ _)).1
    have h2 := (hk pr (List.mem_cons_self _ _)).2
    have ih2 := ih (fun a ha => hk a (List.mem_cons_of_mem _ ha))
    simp only [List.map_cons, mapME_cons, pairOfGroup_pair h1 h2, ih2, Prod.mk.eta]

theorem iterPairs_toDisk {ps2 : List (MFile × MFile)}
    (hwf : ∀ f ∈ flatPairs ps2, f.ts = f.pname.sec * 1000000 ∧ f.fid = f.pname.fid ∧
      f.kind = f.pname.kind)
    (hsorted : List.Pairwise (fun a b => keyLe a b = true) (flatPairs ps2))
    (hfid : ∀ pr ∈ ps2, pr.1.fid = pr.2.fid)
    (hch : List.Chain' (fun pr qr : MFile × MFile => pr.1.fid ≠ qr.1.fid) ps2)
    (hk : ∀ pr ∈ ps2, pr.1.kind = MKind.up ∧ pr.2.kind = MKind.down) :
    getFilesD (toDisk ps2) = flatPairs ps2 ∧
    iterPairs (getFilesD (toDisk ps2)) = .ok ps2 := by
  have h1 : getFilesD (toDisk ps2) = flatPairs ps2 := by
    show sortFiles ((toDisk ps2).map ofDisk) = _
    rw [map_ofDisk_toDisk hwf]
    exact isortM_of_sorted hsorted
  refine ⟨h1, ?_⟩
  show mapME pairOfGroup (groupRuns (getFilesD (toDisk ps2))) = .ok ps2
  rw [h1, groupRuns_flatPairs hfid hch, mapME_blocks hk]

theorem verifyGo_false_facts :
    ∀ (l : List (MFile × MFile)) (prev : MFile × MFile) (ids : List Nat)
      (acc res : List ((MFile × MFile) × VRec)),
      verifyGo false l (some prev) ids acc = .ok res →
      (∃ rest, res = acc ++ rest ∧ (rest.map Prod.fst).Sublist l ∧
        ∀ pe ∈ rest, pe.2.vfid = pe.1.1.fid ∨ pe.2.vfid = pe.1.2.fid) ∧
      (∀ pr ∈ l, pr.1.fid ∉ ids) ∧
      (l.map (fun pr => pr.1.fid)).Nodup ∧
      List.Chain' (fun a b => ∀ e, checkPair a b = some e → (b, e) ∈ res) (prev :: l) := by
  intro l
  induction l with
  | nil =>
    intro prev ids acc res h
    injection h with h2
    subst h2
    exact ⟨⟨[], (List.append_nil acc).symm, List.nil_sublist _,
        fun pe hpe => absurd hpe (List.not_mem_nil pe)⟩,
      fun pr hpr => absurd hpr (List.not_mem_nil pr), List.nodup_nil,
      List.chain'_singleton _⟩
  | cons a rest ih =>
    intro prev ids acc res h
    by_cases hmem : a.1.fid ∈ ids
    · exfalso
      simp only [verifyGo, if_pos hmem] at h
      cases h
    · rcases hchk : checkPair prev a with _ | e
      · have h2 : verifyGo false rest (some a) (a.1.fid :: ids) acc = .ok res := by
          simpa only [verifyGo, if_neg hmem, hchk] using h
        obtain ⟨⟨rest2, hres, hsub, hfid⟩, hnotin, hnd, hchain⟩ :=
          ih a (a.1.fid :: ids) acc res h2
        refine ⟨⟨rest2, hres, List.Sublist.cons a hsub, hfid⟩, ?_, ?_, ?_⟩
        · intro pr hpr
          rcases List.mem_cons.mp hpr with rfl | hpr2
          · exact hmem
          · intro hin
            exact hnotin pr hpr2 (List.mem_cons_of_mem _ hin)
        · refine List.nodup_cons.mpr ⟨?_, hnd⟩
          intro hin
          rcases List.mem_map.mp hin with ⟨pr, hpr, hf⟩
          exact hnotin pr hpr (by rw [hf]; exact List.mem_cons_self _ _)
        · refine List.chain'_cons.mpr ⟨?_, hchain⟩
          intro e he
          rw [hchk] at he
          cases he
      · have h2 : verifyGo false rest (some a) (a.1.fid :: ids) (acc ++ [(a, e)]) =
            .ok res := by
          simpa only [verifyGo, if_neg hmem, hchk] using h
        obtain ⟨⟨rest2, hres, hsub, hfid⟩, hnotin, hnd, hchain⟩ :=
          ih a (a.1.fid :: ids) (acc ++ [(a, e)]) res h2
        have hres2 : res = acc ++ ((a, e) :: rest2) := by
          rw [hres]
          simp
        refine ⟨⟨(a, e) :: rest2, hres2, List.Sublist.cons₂ a hsub, ?_⟩, ?_, ?_, ?_⟩
        · intro pe hpe
          rcases List.mem_cons.mp hpe with rfl | hpe2
          · exact checkPair_some_fid hchk
          · exact hfid pe hpe2
        · intro pr hpr
          rcases List.mem_cons.mp hpr with rfl | hpr2
          · exact hmem
          · intro hin
            exact hnotin pr hpr2 (List.mem_cons_of_mem _ hin)
        · refine List.nodup_cons.mpr ⟨?_, hnd⟩
          intro hin
          rcases List.mem_map.mp hin with ⟨pr, hpr, hf⟩
          exact hnotin pr hpr (by rw [hf]; exact List.mem_cons_self _ _)
        · refine List.chain'_cons.mpr ⟨?_, hchain⟩
          intro e2 he2
          rw [hchk] at he2
          injection he2 with he3
          rw [← he3, hres2]
          exact List.mem_append_right _ (List.mem_cons_self _ _)

theorem verifyGo_false_of_chain :
    ∀ (l : List (MFile × MFile)) (prev : MFile × MFile) (ids : List Nat)
      (acc : List ((MFile × MFile) × VRec)),
      (∀ pr ∈ l, pr.1.fid ∉ ids) →
      (l.map (fun pr => pr.1.fid)).Nodup →
      List.Chain' (fun a b => checkPair a b = none) (prev :: l) →
      verifyGo false l (some prev) ids acc = .ok acc := by
  intro l
  induction l with
  | nil =>
    intro prev ids acc _ _ _
    rfl
  | cons a rest ih =>
    intro prev ids acc hni hnd hch
    have hmem : a.1.fid ∉ ids := hni a (List.mem_cons_self _ _)
    rcases List.chain'_cons.mp hch with ⟨hhead, htail⟩
    simp only [verifyGo, if_neg hmem, hhead]
    refine ih a (a.1.fid :: ids) acc ?_ (List.nodup_cons.mp hnd).2 htail
    intro pr hpr hin
    rcases List.mem_cons.mp hin with heq | hin2
    · exact (List.nodup_cons.mp hnd).1 (List.mem_map.mpr ⟨pr, hpr, heq⟩)
    · exact hni pr (List.mem_cons_of_mem _ hpr) hin2

theorem repairGo_chain {errMap : List (Nat × VKind)} :
    ∀ (l : List (MFile × MFile)) (prevO prevN : MFile × MFile)
      (res : List (MFile × MFile)) (mods : List FName),
      repairGo errMap l (some prevN) = .ok (res, mods) →
      prevN.1.ts = prevO.1.ts → prevN.2.ts = prevO.2.ts →
      prevN.1.pname = prevO.1.pname → prevN.2.pname = prevO.2.pname →
      List.Chain' (fun a b =>
        (lookupErr errMap b.1.fid = none → checkPair a b = none) ∧
        (∀ vk, lookupErr errMap b.1.fid = some vk → vk = VKind.header →
          a.1.ts ≤ b.1.ts ∧ a.2.ts ≤ b.2.ts)) (prevO :: l) →
      List.Chain' (fun a b => checkPair a b = none) (prevN :: res) := by
  intro l
  induction l with
  | nil =>
    intro prevO prevN res mods h _ _ _ _ _
    injection h with h2
    injection h2 with ha hb
    rw [← ha]
    exact List.chain'_singleton _
  | cons pr rest ih =>
    intro prevO prevN res mods h e1 e2 e3 e4 hcov
    rcases List.chain'_cons.mp hcov with ⟨hc1, hc2⟩
    simp only [repairGo] at h
    rcases hl : lookupErr errMap pr.1.fid with _ | vk <;>
      simp only [hl, bind, Except.bind] at h
    · rcases hr : repairGo errMap rest (some pr) with er | ⟨ps2, m2⟩ <;>
        simp only [hr] at h
      · cases h
      · injection h with h2
        injection h2 with ha hb
        rw [← ha]
        have hnoneN : checkPair prevN pr = none := by
          rw [checkPair_congr prevO prevN pr e1 e2 e3 e4]
          exact hc1.1 hl
        exact List.chain'_cons.mpr ⟨hnoneN, ih pr pr ps2 m2 hr rfl rfl rfl rfl hc2⟩
    · rcases hfx : fixFile pr prevN vk with er | pr2 <;> simp only [hfx] at h
      · cases h
      · rcases hr : repairGo errMap rest (some pr2) with er | ⟨ps2, m2⟩ <;>
          simp only [hr] at h
        · cases h
        · injection h with h2
          injection h2 with ha hb
          rw [← ha]
          obtain ⟨hsh, hvk, hh1, hh2⟩ := fixFile_shape hfx
          obtain ⟨ht1, ht2⟩ := hc1.2 vk hl hvk
          have hnoneN : checkPair prevN pr2 = none := by
            rw [checkPair_none_iff]
            refine ⟨?_, ?_, ?_, ?_⟩
            · rw [hsh.1, e1]
              exact ht1
            · rw [hsh.2.2.2.2.1, e2]
              exact ht2
            · simp [hdrBad, hh1]
            · simp [hdrBad, hh2]
          refine List.chain'_cons.mpr ⟨hnoneN, ?_⟩
          exact ih pr pr2 ps2 m2 hr hsh.1 hsh.2.2.2.2.1 hsh.2.2.2.1
            hsh.2.2.2.2.2.2.2 hc2

theorem cov_of_run {errs : List ((MFile × MFile) × VRec)} {p0 : MFile × MFile}
    {rest : List (MFile × MFile)}
    (hrun : verifyGo false rest (some p0) [] [] = .ok errs)
    (hfid : ∀ pr ∈ p0 :: rest, pr.1.fid = pr.2.fid) :
    List.Chain' (fun a b =>
      (lookupErr (errMapOf errs) b.1.fid = none → checkPair a b = none) ∧
      (∀ vk, lookupErr (errMapOf errs) b.1.fid = some vk → vk = VKind.header →
        a.1.ts ≤ b.1.ts ∧ a.2.ts ≤ b.2.ts)) (p0 :: rest) := by
  obtain ⟨⟨rest2, hres, hsub0, hvf⟩, hni, hnd, hchain⟩ :=
    verifyGo_false_facts rest p0 [] [] errs hrun
  have herrs : errs = rest2 := by simpa using hres
  subst herrs
  have hvfid : ∀ pe ∈ errs, pe.2.vfid = pe.1.1.fid := by
    intro pe hpe
    rcases hvf pe hpe with h | h
    · exact h
    · rw [h]
      have hmem : pe.1 ∈ rest := hsub0.subset (List.mem_map.mpr ⟨pe, hpe, rfl⟩)
      exact (hfid pe.1 (List.mem_cons_of_mem _ hmem)).symm
  have hndv : (errs.map (fun pe => pe.2.vfid)).Nodup := by
    have hvvv : errs.map (fun pe => pe.2.vfid) =
        (errs.map Prod.fst).map (fun pr => pr.1.fid) := by
      rw [List.map_map]
      exact List.map_congr_left (fun pe hpe => hvfid pe hpe)
    rw [hvvv]
    exact List.Nodup.sublist (List.Sublist.map _ hsub0) hnd
  refine chain_imp_mem p0 rest ?_ hchain
  intro a b hb hrec
  constructor
  · intro hlk
    rcases hcp : checkPair a b with _ | e
    · rfl
    · exfalso
      have hin : (b, e) ∈ errs := hrec e hcp
      have hvf2 : e.vfid = b.1.fid := hvfid (b, e) hin
      have hne := lookupErr_ne_none_of_mem hin
      rw [hvf2] at hne
      exact hne hlk
  · intro vk hlk hvk
    rcases hcp : checkPair a b with _ | e
    · rcases checkPair_none_iff.mp hcp with ⟨ht1, ht2, _, _⟩
      exact ⟨ht1, ht2⟩
    · have hin : (b, e) ∈ errs := hrec e hcp
      have hvf2 : e.vfid = b.1.fid := hvfid (b, e) hin
      have hlk2 : lookupErr (errMapOf errs) e.vfid = some e.vk :=
        lookupErr_eq_of_mem hin hndv
      rw [hvf2, hlk] at hlk2
      injection hlk2 with hvkeq
      exact checkPair_header_ts hcp (by rw [← hvkeq]; exact hvk)

theorem toDisk_names (ps : List (MFile × MFile)) :
    (toDisk ps).map DFile.nm = (flatPairs ps).map MFile.pname := by
  rw [toDisk_eq_map, List.map_map]
  exact List.map_congr_left (fun f hf => rfl)

theorem flatPairs_pname_eq {ps ps2 : List (MFile × MFile)}
    (h : List.Forall₂ sameShape ps ps2) :
    (flatPairs ps2).map MFile.pname = (flatPairs ps).map MFile.pname := by
  induction h with
  | nil => rfl
  | @cons pr qr l m hsh htail ih =>
    rw [flatPairs_cons, flatPairs_cons]
    simp only [List.map_cons]
    rw [hsh.2.2.2.1, hsh.2.2.2.2.2.2.2, ih]

theorem disk_names_perm {disk : List DFile} {ps : List (MFile × MFile)}
    (h : iterPairs (getFilesD disk) = .ok ps) :
    List.Perm ((flatPairs ps).map MFile.pname) (disk.map DFile.nm) := by
  have hf2 := mapME_ok_forall2 h
  have hperm2 : List.Forall₂ List.Perm (groupRuns (getFilesD disk))
      (ps.map (fun pr => [pr.1, pr.2])) := by
    refine forall2_map_right hf2 ?_
    intro g pr hok
    obtain ⟨hu, hd⟩ := pairOfGroup_filters hok
    have hp := List.filter_append_perm (fun f => f.kind == MKind.up) g
    have hdown : g.filter (fun f => !(f.kind == MKind.up)) =
        g.filter (fun f => f.kind == MKind.down) := by
      refine List.filter_congr ?_
      intro f _
      cases hfk : f.kind <;> rfl
    rw [hdown, hu, hd] at hp
    exact hp.symm
  have hflat : List.Perm (getFilesD disk) (flatPairs ps) := by
    have hff := flatten_perm_forall2 hperm2
    rw [groupRuns_flatten] at hff
    exact hff
  have h1 : List.Perm ((getFilesD disk).map MFile.pname)
      ((flatPairs ps).map MFile.pname) := hflat.map _
  have h2 : List.Perm (disk.map DFile.nm) ((getFilesD disk).map MFile.pname) := by
    have h3 : (disk.map ofDisk).map MFile.pname = disk.map DFile.nm := by
      rw [List.map_map]
      exact List.map_congr_left (fun d hd => rfl)
    have h4 := (isortM_perm keyLe (disk.map ofDisk)).map MFile.pname
    rw [h3] at h4
    exact h4.symm
  exact (h2.trans h1).symm

/-- C8: repair_headers is idempotent and never renames.  For every
folder whose pair decomposition succeeds and in which the up and down
files of each pair carry the same timestamp (the layout the generator
always writes), a successful repair_headers run yields a folder on
which a second run returns the same folder with an empty list of
modified files, and the multiset of file names on disk is unchanged by
the repair. -/
theorem c8_repair_idempotent (disk disk1 : List DFile) (mods : List FName)
    (ps : List (MFile × MFile))
    (h1 : iterPairs (getFilesD disk) = .ok ps)
    (h2 : ∀ pr ∈ ps, pr.1.ts = pr.2.ts)
    (h3 : repairHeadersP disk = .ok (disk1, mods)) :
    repairHeadersP disk1 = .ok (disk1, []) ∧
    List.Perm (disk1.map DFile.nm) (disk.map DFile.nm) := by
  have hvd : verifyDisk false disk = verifyGo false ps none [] [] := by
    unfold verifyDisk
    simp only [bind, Except.bind, h1]
  simp only [repairHeadersP, bind, Except.bind] at h3
  rw [hvd] at h3
  rcases hrun : verifyGo false ps none [] [] with er | errs <;> simp only [hrun] at h3
  · cases h3
  · by_cases hE : errs.isEmpty
    · rw [if_pos hE] at h3
      injection h3 with h4
      injection h4 with ha hb
      subst ha
      constructor
      · simp only [repairHeadersP, bind, Except.bind]
        rw [hvd]
        simp only [hrun]
        rw [if_pos hE]
      · exact List.Perm.refl _
    · rw [if_neg hE] at h3
      simp only [h1] at h3
      rcases hrg : repairGo (errMapOf errs) ps none with er | ⟨ps2, mods2⟩ <;>
        simp only [hrg] at h3
      · cases h3
      · injection h3 with h4
        injection h4 with ha hb
        cases ps with
        | nil =>
          exfalso
          injection hrun with h5
          rw [← h5] at hE
          exact hE rfl
        | cons p0 rest =>
          have hrun2 : verifyGo false rest (some p0) [] [] = .ok errs := hrun
          have hrg2 : ∃ ps3 m3, repairGo (errMapOf errs) rest (some p0) = .ok (ps3, m3) ∧
              ps2 = p0 :: ps3 ∧ mods2 = m3 := by
            simp only [repairGo, bind, Except.bind] at hrg
            rcases hrg3 : repairGo (errMapOf errs) rest (some p0) with er | ⟨ps3, m3⟩ <;>
              simp only [hrg3] at hrg
            · cases hrg
            · injection hrg with h6
              injection h6 with h7 h8
              exact ⟨ps3, m3, rfl, h7.symm, h8.symm⟩
          obtain ⟨ps3, m3, hrg3, hps2, hmods2⟩ := hrg2
          subst hps2
          have hmemfacts := iterPairs_mem h1
          have hshape : List.Forall₂ sameShape rest ps3 := repairGo_shape hrg3
          have hshapeAll : List.Forall₂ sameShape (p0 :: rest) (p0 :: ps3) :=
            List.Forall₂.cons (sameShape_refl p0) hshape
          have hcov := cov_of_run hrun2 (fun pr hpr => (hmemfacts pr hpr).2.2.2.2)
          have hchain : List.Chain' (fun a b => checkPair a b = none) (p0 :: ps3) :=
            repairGo_chain rest p0 p0 ps3 m3 hrg3 rfl rfl rfl rfl hcov
          obtain ⟨_, _, hnd0, _⟩ := verifyGo_false_facts rest p0 [] [] errs hrun2
          have hfideq : ps3.map (fun pr => pr.1.fid) = rest.map (fun pr => pr.1.fid) :=
            forall2_map_eq hshape (fun a b hsh => hsh.2.1)
          have hwf : ∀ f ∈ flatPairs (p0 :: ps3), f.ts = f.pname.sec * 1000000 ∧
              f.fid = f.pname.fid ∧ f.kind = f.pname.kind := by
            intro f hf
            rcases flatPairs_mem.mp hf with ⟨pr2, hpr2, hor⟩
            obtain ⟨pr, hpr, hsh⟩ := forall2_mem_right hshapeAll pr2 hpr2
            have hm := hmemfacts pr hpr
            have hw1 := getFilesD_wf disk pr.1 hm.1
            have hw2 := getFilesD_wf disk pr.2 hm.2.1
            rcases hor with rfl | rfl
            · refine ⟨?_, ?_, ?_⟩
              · rw [hsh.1, hsh.2.2.2.1]
                exact hw1.1
              · rw [hsh.2.1, hsh.2.2.2.1]
                exact hw1.2.1
              · rw [hsh.2.2.1, hsh.2.2.2.1]
                exact hw1.2.2
            · refine ⟨?_, ?_, ?_⟩
              · rw [hsh.2.2.2.2.1, hsh.2.2.2.2.2.2.2]
                exact hw2.1
              · rw [hsh.2.2.2.2.2.1, hsh.2.2.2.2.2.2.2]
                exact hw2.2.1
              · rw [hsh.2.2.2.2.2.2.1, hsh.2.2.2.2.2.2.2]
                exact hw2.2.2
          have hfid2 : ∀ pr2 ∈ p0 :: ps3, pr2.1.fid = pr2.2.fid := by
            intro pr2 hpr2
            obtain ⟨pr, hpr, hsh⟩ := forall2_mem_right hshapeAll pr2 hpr2
            rw [hsh.2.1, hsh.2.2.2.2.2.1]
            exact (hmemfacts pr hpr).2.2.2.2
          have hkind2 : ∀ pr2 ∈ p0 :: ps3, pr2.1.kind = MKind.up ∧
              pr2.2.kind = MKind.down := by
            intro pr2 hpr2
            obtain ⟨pr, hpr, hsh⟩ := forall2_mem_right hshapeAll pr2 hpr2
            rw [hsh.2.2.1, hsh.2.2.2.2.2.2.1]
            exact ⟨(hmemfacts pr hpr).2.2.1, (hmemfacts pr hpr).2.2.2.1⟩
          have hts2 : ∀ pr2 ∈ p0 :: ps3, pr2.1.ts = pr2.2.ts := by
            intro pr2 hpr2
            obtain ⟨pr, hpr, hsh⟩ := forall2_mem_right hshapeAll pr2 hpr2
            rw [hsh.1, hsh.2.2.2.2.1]
            exact h2 pr hpr
          have hsorted0 : List.Pairwise (fun a b => keyLe a b = true) (getFilesD disk) :=
            isortM_pairwise keyLe_trans keyLe_total _
          have hcross0 := pairs_cross_sorted h1 hsorted0
          have hcross2 : List.Pairwise (fun pr qr : MFile × MFile =>
              keyLe pr.1 qr.1 = true ∧ keyLe pr.1 qr.2 = true ∧
              keyLe pr.2 qr.1 = true ∧ keyLe pr.2 qr.2 = true) (p0 :: ps3) := by
            refine pairwise_transfer hshapeAll hcross0 ?_
            intro a b x y hax hby hS
            refine ⟨?_, ?_, ?_, ?_⟩
            · rw [keyLe_congr hax.1 hax.2.1 hby.1 hby.2.1]
              exact hS.1
            · rw [keyLe_congr hax.1 hax.2.1 hby.2.2.2.2.1 hby.2.2.2.2.2.1]
              exact hS.2.1
            · rw [keyLe_congr hax.2.2.2.2.1 hax.2.2.2.2.2.1 hby.1 hby.2.1]
              exact hS.2.2.1
            · rw [keyLe_congr hax.2.2.2.2.1 hax.2.2.2.2.2.1 hby.2.2.2.2.1
                hby.2.2.2.2.2.1]
              exact hS.2.2.2
          have hwithin : ∀ pr2 ∈ p0 :: ps3, keyLe pr2.1 pr2.2 = true :=
            fun pr2 hh => keyLe_of_eq (hts2 pr2 hh) (hfid2 pr2 hh)
          have hsorted2 := flatPairs_sorted hwithin hcross2
          have hchne0 := iterPairs_chain_ne h1
          have hchne2 : List.Chain' (fun pr qr : MFile × MFile =>
              pr.1.fid ≠ qr.1.fid) (p0 :: ps3) := by
            refine chain_transfer hshapeAll hchne0 ?_
            intro a b x y hax hby hS
            rw [hax.2.1, hby.2.1]
            exact hS
          obtain ⟨hgf, hip2⟩ := iterPairs_toDisk hwf hsorted2 hfid2 hchne2 hkind2
          have hnd3 : (ps3.map (fun pr => pr.1.fid)).Nodup := by
            rw [hfideq]
            exact hnd0
          have hverify2 : verifyGo false ps3 (some p0) [] [] = .ok [] :=
            verifyGo_false_of_chain ps3 p0 [] []
              (fun pr hpr hh => absurd hh (List.not_mem_nil _)) hnd3 hchain
          subst ha
          constructor
          · have hv0 : verifyGo false (p0 :: ps3) none ([] : List Nat) [] = .ok [] :=
              hverify2
            simp only [repairHeadersP, verifyDisk, bind, Except.bind, hip2, hv0]
            rfl
          · have heqn : (flatPairs (p0 :: ps3)).map MFile.pname =
                (flatPairs (p0 :: rest)).map MFile.pname := flatPairs_pname_eq hshapeAll
            have hnames1 : (toDisk (p0 :: ps3)).map DFile.nm =
                (flatPairs (p0 :: ps3)).map MFile.pname := toDisk_names _
            rw [hnames1, heqn]
            exact disk_names_perm h1

/-- C8 witness: a two-pair folder whose second pair carries a wrong
header is repaired to the chained folder; running repair_headers on
the repaired folder returns it unchanged with no modified files, and
the file names are a permutation of the original ones. -/
theorem c8_repair_idempotent_witness :
    repairHeadersP chainFolder2 = .ok (chainFolder2, []) ∧
    List.Perm (chainFolder2.map DFile.nm) (brokenFolder2.map DFile.nm) :=
  c8_repair_idempotent brokenFolder2 chainFolder2
    [⟨2, 2, .up⟩, ⟨2, 2, .down⟩] brokenPairs2 (by decide) (by decide) (by decide)

/-! ### C1: referential closure of the sampled database -/

theorem mem_len1 {l : List α} {a b : α} (hl : l.length ≤ 1) (ha : a ∈ l) (hb : b ∈ l) :
    a = b := by
  cases l with
  | nil => cases ha
  | cons x xs =>
    cases xs with
    | nil =>
      have h1 : a = x := by simpa using ha
      have h2 : b = x := by simpa using hb
      rw [h1, h2]
    | cons y ys =>
      exfalso
      simp [List.length_cons] at hl

theorem eq_singleton_of_len1 {l : List Nat} {j : Nat} (hl : l.length ≤ 1) (hj : j ∈ l) :
    l = [j] := by
  cases l with
  | nil => cases hj
  | cons x xs =>
    cases xs with
    | nil =>
      have h1 : j = x := by simpa using hj
      rw [h1]
    | cons y ys =>
      exfalso
      simp [List.length_cons] at hl

theorem fkIdxs_mem {c : STable} {u j : Nat} :
    j ∈ fkIdxs c u ↔ j < c.fks.length ∧ c.fks.get? j = some u := by
  simp [fkIdxs, List.mem_filter, List.mem_range, and_comm]

theorem childrenSafe_mem {g : SGraph} {u c : STable} :
    c ∈ childrenSafe g u ↔ c ∈ g ∧ u.tid ∈ c.fks ∧ c.tid ≠ u.tid ∧ c.ign = false := by
  simp [childrenSafe, List.mem_filter, and_assoc]

theorem parentsSafe_mem {g : SGraph} {t p : STable} :
    p ∈ parentsSafe g t ↔ p ∈ g ∧ p.tid ∈ t.fks ∧ p.tid ≠ t.tid ∧ p.ign = false := by
  simp [parentsSafe, List.mem_filter, and_assoc]

theorem tblOf_some {g : SGraph} {i : Nat} {t : STable} (h : tblOf g i = some t) :
    t ∈ g ∧ t.tid = i := by
  refine ⟨List.mem_of_find?_eq_some h, ?_⟩
  have hp := List.find?_some h
  simpa using hp

theorem tid_inj {g : SGraph} (hdist : (g.map (fun t => t.tid)).Nodup) :
    ∀ x ∈ g, ∀ y ∈ g, x.tid = y.tid → x = y :=
  fun x hx y hy h => List.inj_on_of_nodup_map hdist hx hy h

theorem canonW_mem {l : List Nat} {i : Nat} : i ∈ canonW l ↔ i ∈ l := by
  unfold canonW
  rw [isortM_mem]
  exact List.mem_dedup

theorem pkInsert_mem : ∀ (new acc : List Row) (q : Row),
    q ∈ pkInsert acc new → q ∈ acc ∨ q ∈ new := by
  intro new
  induction new with
  | nil =>
    intro acc q h
    exact Or.inl h
  | cons r new ih =>
    intro acc q h
    have h2 : q ∈ pkInsert (if acc.any (fun x => x.pk == r.pk) then acc
        else acc ++ [r]) new := h
    rcases ih _ q h2 with h3 | h3
    · by_cases hc : acc.any (fun x => x.pk == r.pk)
      · rw [if_pos hc] at h3
        exact Or.inl h3
      · rw [if_neg hc] at h3
        rcases List.mem_append.mp h3 with h4 | h4
        · exact Or.inl h4
        · have h5 : q = r := by simpa using h4
          exact Or.inr (by rw [h5]; exact List.mem_cons_self _ _)
    · exact Or.inr (List.mem_cons_of_mem _ h3)

theorem pkInsert_pk : ∀ (new acc : List Row) (v : Nat),
    ((∃ q ∈ acc, q.pk = v) ∨ (∃ q ∈ new, q.pk = v)) →
    ∃ q ∈ pkInsert acc new, q.pk = v := by
  intro new
  induction new with
  | nil =>
    intro acc v h
    rcases h with h | h
    · exact h
    · rcases h with ⟨q, hq, _⟩
      cases hq
  | cons r new ih =>
    intro acc v h
    show ∃ q ∈ pkInsert (if acc.any (fun x => x.pk == r.pk) then acc
      else acc ++ [r]) new, q.pk = v
    by_cases hc : acc.any (fun x => x.pk == r.pk)
    · rw [if_pos hc]
      refine ih acc v ?_
      rcases h with h | h
      · exact Or.inl h
      · rcases h with ⟨q, hq, hpk⟩
        rcases List.mem_cons.mp hq with rfl | hq2
        · rcases List.any_eq_true.mp hc with ⟨x, hx, hxpk⟩
          exact Or.inl ⟨x, hx, by rw [(by simpa using hxpk : x.pk = q.pk), hpk]⟩
        · exact Or.inr ⟨q, hq2, hpk⟩
    · rw [if_neg hc]
      refine ih _ v ?_
      rcases h with h | h
      · rcases h with ⟨q, hq, hpk⟩
        exact Or.inl ⟨q, List.mem_append_left _ hq, hpk⟩
      · rcases h with ⟨q, hq, hpk⟩
        rcases List.mem_cons.mp hq with rfl | hq2
        · exact Or.inl ⟨q, List.mem_append_right _ (List.mem_cons_self _ _), hpk⟩
        · exact Or.inr ⟨q, hq2, hpk⟩

theorem targetRows_sub {st : SState} {i : Nat} {r : Row} (h : r ∈ targetRows st i) :
    r ∈ tmpRows st i := by
  rcases pkInsert_mem (tmpRows st i) [] r h with h2 | h2
  · cases h2
  · exact h2

theorem targetRows_pk {st : SState} {i : Nat} {v : Nat}
    (h : ∃ q ∈ tmpRows st i, q.pk = v) : ∃ q ∈ targetRows st i, q.pk = v :=
  pkInsert_pk (tmpRows st i) [] v (Or.inr h)

theorem foldJoin_sub (st : SState) (t : STable) :
    ∀ (cs : List STable) (acc : List Row),
      (∀ q ∈ acc, q ∈ t.rows) →
      ∀ q ∈ cs.foldl (fun a c => pkInsert a (joinRows st t c)) acc, q ∈ t.rows := by
  intro cs
  induction cs with
  | nil =>
    intro acc hacc q hq
    exact hacc q hq
  | cons c cs ih =>
    intro acc hacc q hq
    refine ih _ ?_ q hq
    intro x hx
    rcases pkInsert_mem _ _ x hx with h | h
    · exact hacc x h
    · exact (List.mem_filter.mp h).1

theorem foldJoin_mono (st : SState) (t : STable) :
    ∀ (cs : List STable) (acc : List Row) (v : Nat),
      (∃ q ∈ acc, q.pk = v) →
      ∃ q ∈ cs.foldl (fun a c => pkInsert a (joinRows st t c)) acc, q.pk = v := by
  intro cs
  induction cs with
  | nil =>
    intro acc v h
    exact h
  | cons c cs ih =>
    intro acc v h
    exact ih _ v (pkInsert_pk _ _ _ (Or.inl h))

theorem foldJoin_complete (st : SState) (t : STable) :
    ∀ (cs : List STable) (acc : List Row) (c : STable), c ∈ cs → ∀ p ∈ joinRows st t c,
      ∃ q ∈ cs.foldl (fun a c => pkInsert a (joinRows st t c)) acc, q.pk = p.pk := by
  intro cs
  induction cs with
  | nil =>
    intro acc c hc
    cases hc
  | cons c0 cs ih =>
    intro acc c hc p hp
    rcases List.mem_cons.mp hc with rfl | hc2
    · exact foldJoin_mono st t cs _ p.pk (pkInsert_pk _ _ _ (Or.inr ⟨p, hp, rfl⟩))
    · exact ih _ c hc2 p hp

theorem srcOk_spec {g : SGraph} (h : srcOkB g = true) :
    ∀ t ∈ g, ∀ r ∈ t.rows, ∀ j u v, t.fks.get? j = some u →
      r.refs.get? j = some (some v) → ∀ p ∈ g, p.tid = u → ∃ q ∈ p.rows, q.pk = v := by
  intro t ht r hr j u v hfk href p hp htid
  have h1 := List.all_eq_true.mp h t ht
  have h2 := List.all_eq_true.mp h1 r hr
  have hj : j ∈ List.range t.fks.length := by
    rw [List.mem_range]
    rcases List.get?_eq_some.mp hfk with ⟨hlt, _⟩
    exact hlt
  have h3 := List.all_eq_true.mp h2 j hj
  rw [hfk, href] at h3
  have h4 : g.all (fun p => !(p.tid == u) || p.rows.any (fun q => q.pk == v)) = true := h3
  have h5 := List.all_eq_true.mp h4 p hp
  rw [htid] at h5
  simpa using h5

theorem processTable_leaf_eq {g : SGraph} {σ : Nat → List Row → List Row} {st : SState}
    {t : STable} (hp : isProcd st t.tid = false) (hleaf : isLeafT g t = true) :
    processTable g σ st t =
      .ok (⟨(t.tid, (σ t.tid t.rows).take (tableSize t)) :: st.tmps, t.tid :: st.procd⟩,
        unprocIds st (parentsSafe g t)) := by
  unfold processTable
  rw [if_neg (by simp [hp]), if_pos hleaf]

theorem processTable_node_eq {g : SGraph} {σ : Nat → List Row → List Row} {st : SState}
    {t : STable} (hp : isProcd st t.tid = false) (hleaf : isLeafT g t = false)
    (hcp : childrenProcd g st t = true) :
    processTable g σ st t =
      .ok (⟨(t.tid, nodeTmp g σ st t) :: st.tmps, t.tid :: st.procd⟩,
        unprocIds st (parentsSafe g t)) := by
  unfold processTable nodeTmp nodeJoined
  rw [if_neg (by simp [hp]), if_neg (by simp [hleaf]), if_pos hcp]

theorem processTable_defer_eq {g : SGraph} {σ : Nat → List Row → List Row} {st : SState}
    {t : STable} (hp : isProcd st t.tid = false) (hleaf : isLeafT g t = false)
    (hcp : childrenProcd g st t = false) :
    processTable g σ st t = .ok (st, unprocIds st (childrenSafe g t)) := by
  unfold processTable
  rw [if_neg (by simp [hp]), if_neg (by simp [hleaf]), if_neg (by simp [hcp])]

theorem sInv_update {g : SGraph} {st : SState} {t : STable} {tmp : List Row}
    (hdist : (g.map (fun x => x.tid)).Nodup)
    (ht : t ∈ g) (hign : t.ign = false)
    (hnp : isProcd st t.tid = false)
    (hinv : sInv g st)
    (htmp : ∀ r ∈ tmp, r ∈ t.rows)
    (hkids : ∀ c ∈ childrenSafe g t, isProcd st c.tid = true ∧
      (∀ s ∈ tmpRows st c.tid, ∀ j ∈ fkIdxs c t.tid, ∀ v,
        s.refs.get? j = some (some v) → ∃ p ∈ tmp, p.pk = v)) :
    sInv g ⟨(t.tid, tmp) :: st.tmps, t.tid :: st.procd⟩ := by
  obtain ⟨ha, hb, hd⟩ := hinv
  have hproc : ∀ i, isProcd ⟨(t.tid, tmp) :: st.tmps, t.tid :: st.procd⟩ i = true ↔
      (i = t.tid ∨ isProcd st i = true) := by
    intro i
    simp [isProcd, List.contains_cons]
  have htmpR : ∀ i, i ≠ t.tid →
      tmpRows ⟨(t.tid, tmp) :: st.tmps, t.tid :: st.procd⟩ i = tmpRows st i := by
    intro i hi
    unfold tmpRows
    rw [List.find?_cons_of_neg _ (by simpa using Ne.symm hi)]
  have htmpT : tmpRows ⟨(t.tid, tmp) :: st.tmps, t.tid :: st.procd⟩ t.tid = tmp := by
    unfold tmpRows
    rw [List.find?_cons_of_pos _ (by simp)]
    rfl
  refine ⟨?_, ?_, ?_⟩
  · intro i hi
    rcases List.mem_cons.mp hi with rfl | hi2
    · exact ⟨t, ht, rfl, hign⟩
    · exact ha i hi2
  · intro x hx hpx r hr
    by_cases hxt : x.tid = t.tid
    · have hxeq : x = t := tid_inj hdist x hx t ht hxt
      rw [hxt, htmpT] at hr
      rw [hxeq]
      exact htmp r hr
    · rw [htmpR x.tid hxt] at hr
      rcases (hproc x.tid).mp hpx with he | hp3
      · exact absurd he hxt
      · exact hb x hx hp3 r hr
  · intro u hu hpu c hc
    have hcfacts := childrenSafe_mem.mp hc
    by_cases hut : u.tid = t.tid
    · have hueq : u = t := tid_inj hdist u hu t ht hut
      rw [hueq] at hc
      have hk := hkids c hc
      have hcne : c.tid ≠ t.tid := by
        rw [← hut]
        exact hcfacts.2.2.1
      constructor
      · exact (hproc c.tid).mpr (Or.inr hk.1)
      · intro s hs j hj v hv
        rw [htmpR c.tid hcne] at hs
        rw [hut] at hj
        obtain ⟨p, hp, hpk⟩ := hk.2 s hs j hj v hv
        refine ⟨p, ?_, hpk⟩
        rw [hut, htmpT]
        exact hp
    · have hpu2 : isProcd st u.tid = true := by
        rcases (hproc u.tid).mp hpu with he | hp3
        · exact absurd he hut
        · exact hp3
      have hold := hd u hu hpu2 c hc
      have hcne : c.tid ≠ t.tid := by
        intro he
        have hceq : c = t := tid_inj hdist c hcfacts.1 t ht he
        have hx := hold.1
        rw [hceq] at hx
        rw [hnp] at hx
        cases hx
      constructor
      · exact (hproc c.tid).mpr (Or.inr hold.1)
      · intro s hs j hj v hv
        rw [htmpR c.tid hcne] at hs
        obtain ⟨p, hp, hpk⟩ := hold.2 s hs j hj v hv
        refine ⟨p, ?_, hpk⟩
        rw [htmpR u.tid hut]
        exact hp

theorem unprocIds_valid {g : SGraph} {st : SState} {ts : List STable}
    (hts : ∀ x ∈ ts, x ∈ g ∧ x.ign = false) :
    validIds g (unprocIds st ts) := by
  intro i hi
  obtain ⟨x, hx, hxi⟩ := List.mem_map.mp hi
  have hx2 := (List.mem_filter.mp hx).1
  exact ⟨x, (hts x hx2).1, hxi, (hts x hx2).2⟩

theorem nodeTmp_sub {g : SGraph} {σ : Nat → List Row → List Row} {st : SState} {t : STable}
    (hσ : ∀ i rs, ∀ r ∈ σ i rs, r ∈ rs) :
    ∀ r ∈ nodeTmp g σ st t, r ∈ t.rows := by
  intro r hr
  unfold nodeTmp at hr
  have hJ : ∀ q ∈ nodeJoined g st t, q ∈ t.rows :=
    foldJoin_sub st t (childrenOrdered g t) []
      (fun q hq => absurd hq (List.not_mem_nil q))
  by_cases hlt : (nodeJoined g st t).length < tableSize t
  · rw [if_pos hlt] at hr
    rcases List.mem_append.mp hr with h2 | h2
    · exact hJ r h2
    · have h3 := List.mem_of_mem_take h2
      have h4 := hσ t.tid _ r h3
      exact (List.mem_filter.mp h4).1
  · rw [if_neg hlt] at hr
    exact hJ r hr

theorem nodeJoined_sub_tmp {g : SGraph} {σ : Nat → List Row → List Row} {st : SState}
    {t : STable} {x : Row} (hx : x ∈ nodeJoined g st t) : x ∈ nodeTmp g σ st t := by
  unfold nodeTmp
  by_cases hlt : (nodeJoined g st t).length < tableSize t
  · rw [if_pos hlt]
    exact List.mem_append_left _ hx
  · rw [if_neg hlt]
    exact hx

theorem processTable_inv {g : SGraph} {σ : Nat → List Row → List Row} {st : SState}
    {t : STable} {st' : SState} {ret : List Nat}
    (hdist : (g.map (fun x => x.tid)).Nodup)
    (hσ : ∀ i rs, ∀ r ∈ σ i rs, r ∈ rs)
    (hcons : srcOkB g = true)
    (hsingle : ∀ x ∈ g, ∀ u ∈ x.fks, (fkIdxs x u).length ≤ 1)
    (ht : t ∈ g) (hign : t.ign = false) (hinv : sInv g st)
    (h : processTable g σ st t = .ok (st', ret)) :
    sInv g st' ∧ validIds g ret := by
  by_cases hp : isProcd st t.tid = true
  · exfalso
    unfold processTable at h
    rw [if_pos hp] at h
    cases h
  · have hp2 : isProcd st t.tid = false := by
      rcases hb : isProcd st t.tid
      · rfl
      · exact absurd hb hp
    by_cases hleaf : isLeafT g t = true
    · rw [processTable_leaf_eq hp2 hleaf] at h
      injection h with h2
      injection h2 with hs hret
      rw [← hs, ← hret]
      constructor
      · refine sInv_update hdist ht hign hp2 hinv ?_ ?_
        · intro r hr
          exact hσ t.tid t.rows r (List.mem_of_mem_take hr)
        · intro c hc
          exfalso
          have h2 : ((childrenSafe g t).isEmpty && !(parentsSafe g t).isEmpty) = true :=
            hleaf
          rw [Bool.and_eq_true] at h2
          have hcempty := List.isEmpty_iff.mp h2.1
          rw [hcempty] at hc
          cases hc
      · refine unprocIds_valid ?_
        intro x hx
        have := parentsSafe_mem.mp hx
        exact ⟨this.1, this.2.2.2⟩
    · have hleaf2 : isLeafT g t = false := by
        rcases hb : isLeafT g t
        · rfl
        · exact absurd hb hleaf
      by_cases hcp : childrenProcd g st t = true
      · rw [processTable_node_eq hp2 hleaf2 hcp] at h
        injection h with h2
        injection h2 with hs hret
        rw [← hs, ← hret]
        constructor
        · refine sInv_update hdist ht hign hp2 hinv (nodeTmp_sub hσ) ?_
          intro c hc
          have hcg : c ∈ g := (childrenSafe_mem.mp hc).1
          have hcproc : isProcd st c.tid = true := by
            have hcp2 : (childrenSafe g t).all (fun c => isProcd st c.tid) = true := hcp
            exact List.all_eq_true.mp hcp2 c hc
          refine ⟨hcproc, ?_⟩
          intro s hs2 j hj v hv
          have hfk : c.fks.get? j = some t.tid := (fkIdxs_mem.mp hj).2
          have hsrows : s ∈ c.rows := hinv.2.1 c hcg hcproc s hs2
          obtain ⟨q, hq, hqpk⟩ :=
            srcOk_spec hcons c hcg s hsrows j t.tid v hfk hv t ht rfl
          have hidx : fkIdxs c t.tid = [j] :=
            eq_singleton_of_len1 (hsingle c hcg t.tid (List.get?_mem hfk)) hj
          have hcond : joinCondB st c t.tid q = true := by
            unfold joinCondB
            rw [hidx]
            simp only [List.all_cons, List.all_nil, Bool.and_true]
            refine List.any_eq_true.mpr ⟨s, hs2, ?_⟩
            rw [hqpk, hv]
            simp
          have hjr : q ∈ joinRows st t c := List.mem_filter.mpr ⟨hq, hcond⟩
          have hco : c ∈ childrenOrdered g t := by
            unfold childrenOrdered
            rw [isortM_mem]
            exact hc
          obtain ⟨x, hx, hxpk⟩ :=
            foldJoin_complete st t (childrenOrdered g t) [] c hco q hjr
          exact ⟨x, nodeJoined_sub_tmp hx, by rw [hxpk, hqpk]⟩
        · refine unprocIds_valid ?_
          intro x hx
          have := parentsSafe_mem.mp hx
          exact ⟨this.1, this.2.2.2⟩
      · have hcp2 : childrenProcd g st t = false := by
          rcases hb : childrenProcd g st t
          · rfl
          · exact absurd hb hcp
        rw [processTable_defer_eq hp2 hleaf2 hcp2] at h
        injection h with h2
        injection h2 with hs hret
        rw [← hs, ← hret]
        refine ⟨hinv, unprocIds_valid ?_⟩
        intro x hx
        have := childrenSafe_mem.mp hx
        exact ⟨this.1, this.2.2.2⟩

theorem runPass_inv {g : SGraph} {σ : Nat → List Row → List Row}
    (hdist : (g.map (fun x => x.tid)).Nodup)
    (hσ : ∀ i rs, ∀ r ∈ σ i rs, r ∈ rs)
    (hcons : srcOkB g = true)
    (hsingle : ∀ x ∈ g, ∀ u ∈ x.fks, (fkIdxs x u).length ≤ 1) :
    ∀ (w : List Nat) (st : SState) (acc : List Nat),
      sInv g st → validIds g w → validIds g acc →
      ∀ {st' : SState} {acc' : List Nat}, runPass g σ w st acc = .ok (st', acc') →
      sInv g st' ∧ validIds g acc' := by
  intro w
  induction w with
  | nil =>
    intro st acc hinv _ hacc st' acc' h
    injection h with h2
    injection h2 with ha hb
    rw [← ha, ← hb]
    exact ⟨hinv, hacc⟩
  | cons i is ih =>
    intro st acc hinv hw hacc st' acc' h
    simp only [runPass] at h
    rcases htb : tblOf g i with _ | t <;> simp only [htb] at h
    · cases h
    · obtain ⟨htg, hti⟩ := tblOf_some htb
      by_cases hpi : isProcd st i = true
      · rw [if_pos hpi] at h
        exact ih st acc hinv (fun x hx => hw x (List.mem_cons_of_mem _ hx)) hacc h
      · rw [if_neg hpi] at h
        simp only [bind, Except.bind] at h
        rcases hpt : processTable g σ st t with er | ⟨st1, ret⟩ <;> simp only [hpt] at h
        · cases h
        · obtain ⟨x, hxg, hxi, hxign⟩ := hw i (List.mem_cons_self _ _)
          have hxt : x = t := tid_inj hdist x hxg t htg (by rw [hxi, hti])
          have hign : t.ign = false := by
            rw [← hxt]
            exact hxign
          obtain ⟨hinv1, hret⟩ :=
            processTable_inv hdist hσ hcons hsingle htg hign hinv hpt
          refine ih st1 (acc ++ ret) hinv1
            (fun x hx => hw x (List.mem_cons_of_mem _ hx)) ?_ h
          intro k hk
          rcases List.mem_append.mp hk with h2 | h2
          · exact hacc k h2
          · exact hret k h2

theorem runLoop_inv {g : SGraph} {σ : Nat → List Row → List Row}
    (hdist : (g.map (fun x => x.tid)).Nodup)
    (hσ : ∀ i rs, ∀ r ∈ σ i rs, r ∈ rs)
    (hcons : srcOkB g = true)
    (hsingle : ∀ x ∈ g, ∀ u ∈ x.fks, (fkIdxs x u).length ≤ 1) :
    ∀ (fuel : Nat) (w : List Nat) (st : SState), sInv g st → validIds g w →
      ∀ {st' : SState}, runLoop g σ fuel w st = .ok st' → sInv g st' := by
  intro fuel
  induction fuel with
  | zero =>
    intro w st _ _ st' h
    cases h
  | succ n ih =>
    intro w st hinv hw st' h
    simp only [runLoop] at h
    by_cases hw0 : w.isEmpty = true
    · rw [if_pos hw0] at h
      injection h with h2
      rw [← h2]
      exact hinv
    · rw [if_neg hw0] at h
      simp only [bind, Except.bind] at h
      rcases hrp : runPass g σ w st [] with er | ⟨st1, acc⟩ <;> simp only [hrp] at h
      · cases h
      · obtain ⟨hinv1, hacc⟩ := runPass_inv hdist hσ hcons hsingle w st [] hinv hw
          (fun k hk => absurd hk (List.not_mem_nil k)) hrp
        by_cases hcyc : (canonW acc == canonW w) = true
        · rw [if_pos hcyc] at h
          cases h
        · rw [if_neg hcyc] at h
          refine ih (canonW acc) st1 hinv1 ?_ h
          intro k hk
          exact hacc k (canonW_mem.mp hk)

theorem sampleDatabase_facts {g : SGraph} {σ : Nat → List Row → List Row} {fuel : Nat}
    {st : SState}
    (hdist : (g.map (fun x => x.tid)).Nodup)
    (hσ : ∀ i rs, ∀ r ∈ σ i rs, r ∈ rs)
    (hcons : srcOkB g = true)
    (hsingle : ∀ x ∈ g, ∀ u ∈ x.fks, (fkIdxs x u).length ≤ 1)
    (h : sampleDatabase g σ fuel = .ok st) :
    sInv g st ∧ ∀ t ∈ g, isProcd st t.tid = true := by
  simp only [sampleDatabase, bind, Except.bind] at h
  rcases hct : createTempTables g σ fuel with er | st0 <;> simp only [hct] at h
  · cases h
  · by_cases hall : g.all (fun t => isProcd st0 t.tid) = true
    · rw [if_pos hall] at h
      injection h with h2
      subst h2
      refine ⟨?_, fun t ht => List.all_eq_true.mp hall t ht⟩
      simp only [createTempTables] at hct
      by_cases hw0 : (canonW ((g.filter
          (fun t => isRootT g t && !t.ign)).map (fun t => t.tid))).isEmpty = true
      · rw [if_pos hw0] at hct
        cases hct
      · rw [if_neg hw0] at hct
        refine runLoop_inv hdist hσ hcons hsingle fuel _ ⟨[], []⟩ ?_ ?_ hct
        · refine ⟨?_, ?_, ?_⟩
          · intro i hi
            cases hi
          · intro t _ hpt
            simp [isProcd] at hpt
          · intro u _ hpu
            simp [isProcd] at hpu
        · intro i hi
          obtain ⟨x, hx, hxi⟩ := List.mem_map.mp (canonW_mem.mp hi)
          have hx2 := List.mem_filter.mp hx
          have hpred := hx2.2
          rw [Bool.and_eq_true] at hpred
          refine ⟨x, hx2.1, hxi, ?_⟩
          have h3 := hpred.2
          simp at h3
          exact h3
    · rw [if_neg hall] at h
      cases h

/-- C1 counterexample: on a single table carrying a foreign key to
itself, sample_database succeeds while the copied row references a
primary key that was not copied: the self-referencing foreign key is
excluded from both children and parents, so the table is processed as
an ordinary root with an arbitrary row choice, and the target is not
closed under the foreign-key relation. -/
theorem c1_counterexample :
    sampleDatabase gEx sigEx 10 = .ok stEx ∧ riOkB gEx stEx = false := by
  refine ⟨by decide, by decide⟩

/-- C1 (amended): the copied database is closed under every
foreign-key reference between two distinct tables provided the schema
has pairwise distinct table ids, no table references itself or holds
two foreign keys to the same table, every foreign key points at a
table of the schema, the source database satisfies its foreign keys,
and the row choice picks a subset of its input rows.  Self-references
break the property because child_tables_safe and parent_tables_safe
exclude them, and a pair of foreign keys to the same table breaks it
because the generated insert joins once per key, keeping only parent
rows matched by every join. -/
theorem c1_amended (g : SGraph) (σ : Nat → List Row → List Row) (fuel : Nat) (st : SState)
    (hdist : (g.map (fun t => t.tid)).Nodup)
    (hσ : ∀ i rs, ∀ r ∈ σ i rs, r ∈ rs)
    (hself : ∀ t ∈ g, ∀ u ∈ t.fks, u ≠ t.tid)
    (hcons : srcOkB g = true)
    (hsingle : ∀ t ∈ g, ∀ u ∈ t.fks, (fkIdxs t u).length ≤ 1)
    (htgt : ∀ t ∈ g, ∀ u ∈ t.fks, ∃ p ∈ g, p.tid = u)
    (hrun : sampleDatabase g σ fuel = .ok st) :
    riOkB g st = true := by
  obtain ⟨hinv, hall⟩ := sampleDatabase_facts hdist hσ hcons hsingle hrun
  refine List.all_eq_true.mpr ?_
  intro t ht
  refine List.all_eq_true.mpr ?_
  intro r hr
  refine List.all_eq_true.mpr ?_
  intro j hj
  rcases hfg : t.fks.get? j with _ | u
  · rcases r.refs.get? j with _ | w
    · rfl
    · rfl
  · rcases hrr : r.refs.get? j with _ | w
    · rfl
    · rcases w with _ | v
      · rfl
      · show (targetRows st u).any (fun p => p.pk == v) = true
        have hu : u ∈ t.fks := List.get?_mem hfg
        obtain ⟨up, hupg, hupt⟩ := htgt t ht u hu
        have hune : u ≠ t.tid := hself t ht u hu
        have htign : t.ign = false := by
          have hpt : isProcd st t.tid = true := hall t ht
          have hmem : t.tid ∈ st.procd := by
            have h2 : st.procd.contains t.tid = true := hpt
            simpa using h2
          obtain ⟨x, hxg, hxt, hxign⟩ := hinv.1 t.tid hmem
          have hxe : x = t := tid_inj hdist x hxg t ht hxt
          rw [← hxe]
          exact hxign
        have hcs : t ∈ childrenSafe g up := by
          refine childrenSafe_mem.mpr ⟨ht, ?_, ?_, htign⟩
          · rw [hupt]
            exact hu
          · rw [hupt]
            exact Ne.symm hune
        have hd := hinv.2.2 up hupg (hall up hupg) t hcs
        have hrt : r ∈ tmpRows st t.tid := targetRows_sub hr
        have hjm : j ∈ fkIdxs t up.tid := by
          refine fkIdxs_mem.mpr ⟨?_, ?_⟩
          · rcases List.get?_eq_some.mp hfg with ⟨hlt, _⟩
            exact hlt
          · rw [hupt]
            exact hfg
        obtain ⟨p, hp, hpk⟩ := hd.2 r hrt j hjm v hrr
        have hex : ∃ q ∈ targetRows st up.tid, q.pk = v := targetRows_pk ⟨p, hp, hpk⟩
        rw [hupt] at hex
        obtain ⟨q, hq, hqpk⟩ := hex
        refine List.any_eq_true.mpr ⟨q, hq, ?_⟩
        simp [hqpk]

/-- C1 witness: a two-table parent-child schema with full sampling and
the identity row choice satisfies the hypotheses, and the closure
check indeed succeeds on the resulting state. -/
theorem c1_amended_witness : riOkB gW stW = true :=
  c1_amended gW pickAll 10 stW (by decide) (fun i rs r h => h) (by decide) (by decide)
    (by decide) (by decide) (by decide)
